import Mathlib

/-! The ingestion pipeline of web-gallery_worker.

A shallow embedding of the pure parts of the worker (`src/main.cpp`,
`src/includes/MetadataExtractor.cpp`, `src/includes/DbManager.cpp`) together
with the properties that the design document states about them.

Conventions of the embedding:

* a `std::string` / `QString` is a finite sequence of characters (`List Char`); the marker
  and the date pattern are made of ASCII characters only, which stand for themselves in every
  encoding that the program converts between;
* `std::string::npos` is `none`;
* a C++ call that can throw (`substr` past the end) returns `Option`.
-/

namespace WebGalleryWorker

/-! ## Strings -/

/-- A `std::string`: a finite sequence of `char` units. -/
abbrev StdString := List Char

/-- Scan of `std::string::find`: the text `s` is what is left of the string from
index `i` on; the first index at which `pat` starts is returned. -/
def findAt (pat : StdString) : StdString → Nat → Option Nat
  | [], i => if pat.isPrefixOf [] then some i else none
  | c :: t, i => if pat.isPrefixOf (c :: t) then some i else findAt pat t (i + 1)

/-- The call `s.find(pat, pos)`: the least index `≥ pos` at which `pat` occurs in `s`,
or `none` for `npos`. -/
def find (s pat : StdString) (pos : Nat) : Option Nat :=
  if s.length < pos then none else findAt pat (s.drop pos) pos

/-- The call `s.substr(pos)`: throws `std::out_of_range` (here `none`) when `pos > size()`. -/
def substr (s : StdString) (pos : Nat) : Option StdString :=
  if s.length < pos then none else some (s.drop pos)

/-- The call `s.substr(pos, n)`. -/
def substrN (s : StdString) (pos n : Nat) : Option StdString :=
  if s.length < pos then none else some ((s.drop pos).take n)

/-! ## `parseFilename` (main.cpp) -/

/-- The ownership marker `"___"`. -/
def marker : StdString := ['_', '_', '_']

/-- The struct `FileInfo`, with its default member initialisers. -/
structure FileInfo where
  user : StdString := "system".toList
  cleanName : StdString := []
  deriving DecidableEq, Repr

/-- The function `parseFilename` of main.cpp. The result is `none` exactly when one of the
`substr` calls would throw. -/
def parseFilename (rawName : StdString) : Option FileInfo :=
  let info : FileInfo := { cleanName := rawName }
  match find rawName marker 0 with
  | some firstSep => do
      let user ← substrN rawName 0 firstSep
      match find rawName marker (firstSep + 3) with
      | some secondSep => do
          let cleanName ← substr rawName (secondSep + 3)
          pure { user := user, cleanName := cleanName }
      | none => do
          let cleanName ← substr rawName (firstSep + 3)
          pure { user := user, cleanName := cleanName }
  | none => some info

/-- Specification vocabulary: `pat` occurs in `s` at index `i`, i.e. the `pat.length`
characters of `s` that start at index `i` exist and spell `pat`. -/
def OccursAt (pat s : StdString) (i : Nat) : Prop :=
  i + pat.length ≤ s.length ∧ (s.drop i).take pat.length = pat

instance (pat s : StdString) (i : Nat) : Decidable (OccursAt pat s i) :=
  inferInstanceAs (Decidable (_ ∧ _))

/-! ## Qt dates and times

`QDate`, `QTime` and `QDateTime` belong to the Qt library. They are modelled by their calendar
fields, following the documented behaviour of the library: an invalid `QDate` reports year,
month and day `0`, an invalid `QTime` reports `-1` for each field, and a constructor that is
given an impossible combination produces the invalid value. Time zones and daylight-saving
transitions are not part of the model: a `QDateTime` is valid when its date and its time are. -/

/-- Qt's Gregorian leap-year rule. There is no year 0, so year -1 is a leap year. -/
def isLeapYear (year : Int) : Bool :=
  let y := if year < 1 then year + 1 else year
  y % 4 = 0 ∧ (y % 100 ≠ 0 ∨ y % 400 = 0)

/-- Number of days of `month` in `year` (0 for an impossible month). -/
def daysInMonth (year month : Int) : Int :=
  if month = 2 then (if isLeapYear year then 29 else 28)
  else if month = 4 ∨ month = 6 ∨ month = 9 ∨ month = 11 then 30
  else if 1 ≤ month ∧ month ≤ 12 then 31
  else 0

/-- The static check `QDate::isValid(year, month, day)`. -/
def validDate (year month day : Int) : Bool :=
  year ≠ 0 ∧ 1 ≤ month ∧ month ≤ 12 ∧ 1 ≤ day ∧ day ≤ daysInMonth year month

/-- The static check `QTime::isValid(h, m, s)`. -/
def validTime (hour minute second : Int) : Bool :=
  0 ≤ hour ∧ hour ≤ 23 ∧ 0 ≤ minute ∧ minute ≤ 59 ∧ 0 ≤ second ∧ second ≤ 59

/-- A `QDate`, by the fields that `year()`, `month()`, `day()` report. -/
structure QDate where
  year : Int
  month : Int
  day : Int
  deriving DecidableEq, Repr

/-- A `QTime`, by the fields that `hour()`, `minute()`, `second()` report. -/
structure QTime where
  hour : Int
  minute : Int
  second : Int
  deriving DecidableEq, Repr

/-- The default-constructed, invalid `QDate()`. -/
def QDate.null : QDate := ⟨0, 0, 0⟩

/-- The default-constructed, invalid `QTime()`. -/
def QTime.null : QTime := ⟨-1, -1, -1⟩

/-- The constructor `QDate(y, m, d)`: an impossible date gives the invalid date. -/
def QDate.ofYMD (y m d : Int) : QDate :=
  if validDate y m d then ⟨y, m, d⟩ else QDate.null

/-- The constructor `QTime(h, m, s)`: an impossible time gives the invalid time. -/
def QTime.ofHMS (h m s : Int) : QTime :=
  if validTime h m s then ⟨h, m, s⟩ else QTime.null

/-- The method `QDate::isValid()`. -/
def QDate.isValid (d : QDate) : Bool := validDate d.year d.month d.day

/-- The method `QTime::isValid()`. -/
def QTime.isValid (t : QTime) : Bool := validTime t.hour t.minute t.second

/-- A `QDateTime`: a date and a time of day. -/
structure QDateTime where
  date : QDate
  time : QTime
  deriving DecidableEq, Repr

/-- The default-constructed, invalid `QDateTime()`. -/
def QDateTime.null : QDateTime := ⟨QDate.null, QTime.null⟩

/-- The constructor `QDateTime(date, time)`; a valid date with an invalid time is set to
midnight, as the library documents. -/
def QDateTime.ofDateTime (date : QDate) (time : QTime) : QDateTime :=
  if date.isValid ∧ ¬ time.isValid then ⟨date, ⟨0, 0, 0⟩⟩ else ⟨date, time⟩

/-- The method `QDateTime::isValid()`. -/
def QDateTime.isValid (dt : QDateTime) : Bool := dt.date.isValid && dt.time.isValid

/-! ## `extractDateFromFilename` (main.cpp) -/

/-- The class `\d` of the regular expression: an ASCII digit (the expression is built without
the Unicode-properties option). -/
def isDigit (c : Char) : Bool := decide ('0'.toNat ≤ c.toNat ∧ c.toNat ≤ '9'.toNat)

/-- One piece of the regular expression of `extractDateFromFilename`: a capturing group
`(\d{n})` or a literal character. -/
inductive Piece where
  | group (n : Nat)
  | lit (c : Char)
  deriving DecidableEq, Repr

/-- The expression `(\d{4})-(\d{2})-(\d{2})_(\d{2})(\d{2})(\d{2})`. -/
def re : List Piece :=
  [.group 4, .lit '-', .group 2, .lit '-', .group 2, .lit '_', .group 2, .group 2, .group 2]

/-- Match of a list of pieces against the beginning of a text; the captured groups are
returned in order. -/
def matchPieces : List Piece → StdString → Option (List StdString)
  | [], _ => some []
  | .lit _ :: _, [] => none
  | .lit c :: ps, x :: xs => if x = c then matchPieces ps xs else none
  | .group n :: ps, xs =>
      if n ≤ xs.length ∧ (xs.take n).all isDigit = true then
        (matchPieces ps (xs.drop n)).map fun caps => xs.take n :: caps
      else none

/-- The call `re.match(text)`: the captures of the leftmost match, or `none` when
`hasMatch()` is false. -/
def reMatch (pieces : List Piece) : StdString → Option (List StdString)
  | [] => matchPieces pieces []
  | c :: t =>
      match matchPieces pieces (c :: t) with
      | some caps => some caps
      | none => reMatch pieces t

/-- The call `match.captured(n)` for `n ≥ 1`. -/
def captured (caps : List StdString) (n : Nat) : StdString := caps.getD (n - 1) []

/-- The call `QString::toInt()` on a string of decimal digits. -/
def toInt (s : StdString) : Int :=
  ((s.foldl (fun acc c => 10 * acc + (c.toNat - '0'.toNat)) 0 : Nat) : Int)

/-- The function `extractDateFromFilename` of main.cpp. -/
def extractDateFromFilename (filename : StdString) : QDateTime :=
  match reMatch re filename with
  | some caps =>
      let year := toInt (captured caps 1)
      let month := toInt (captured caps 2)
      let day := toInt (captured caps 3)
      let hour := toInt (captured caps 4)
      let min := toInt (captured caps 5)
      let sec := toInt (captured caps 6)
      let date := QDate.ofYMD year month day
      let time := QTime.ofHMS hour min sec
      if date.isValid && time.isValid then QDateTime.ofDateTime date time
      else QDateTime.null
  | none => QDateTime.null

/-- Specification vocabulary: the text `w` has the form `dddd-dd-dd_dddddd`, each `d` an
ASCII digit. -/
def IsStamp (w : StdString) : Prop :=
  w.length = 17 ∧ (w.take 4).all isDigit = true ∧ w.getD 4 ' ' = '-'
    ∧ ((w.drop 5).take 2).all isDigit = true ∧ w.getD 7 ' ' = '-'
    ∧ ((w.drop 8).take 2).all isDigit = true ∧ w.getD 10 ' ' = '_'
    ∧ ((w.drop 11).take 6).all isDigit = true

instance (w : StdString) : Decidable (IsStamp w) :=
  inferInstanceAs (Decidable (_ ∧ _))

/-- Specification vocabulary: the 17 characters of `s` from index `i` on. -/
def stampAt (s : StdString) (i : Nat) : StdString := (s.drop i).take 17

/-- Specification vocabulary: a text of the form `dddd-dd-dd_dddddd` stands in `s` at
index `i`. -/
def StampAt (s : StdString) (i : Nat) : Prop :=
  i + 17 ≤ s.length ∧ IsStamp (stampAt s i)

instance (s : StdString) (i : Nat) : Decidable (StampAt s i) :=
  inferInstanceAs (Decidable (_ ∧ _))

/-- Specification vocabulary: the six fields of a text of the form `dddd-dd-dd_dddddd`, in the
order year, month, day, hour, minute, second. -/
def stampFields (w : StdString) : List StdString :=
  [w.take 4, (w.drop 5).take 2, (w.drop 8).take 2, (w.drop 11).take 2, (w.drop 13).take 2,
    (w.drop 15).take 2]

/-- Specification vocabulary: the date and time that the six fields of `w` spell. -/
def stampDateTime (w : StdString) : QDateTime :=
  { date := ⟨toInt (w.take 4), toInt ((w.drop 5).take 2), toInt ((w.drop 8).take 2)⟩
    time := ⟨toInt ((w.drop 11).take 2), toInt ((w.drop 13).take 2), toInt ((w.drop 15).take 2)⟩ }

/-- Specification vocabulary: the six fields of `w` denote a date of the calendar (the Gregorian
calendar as Qt has it, without a year 0) and a time of day. -/
def RealStamp (w : StdString) : Prop :=
  validDate (stampDateTime w).date.year (stampDateTime w).date.month (stampDateTime w).date.day
      = true
    ∧ validTime (stampDateTime w).time.hour (stampDateTime w).time.minute
      (stampDateTime w).time.second = true

instance (w : StdString) : Decidable (RealStamp w) :=
  inferInstanceAs (Decidable (_ ∧ _))

/-! ## Metadata records (MetadataExtractor.h) and the Exiv2 containers

The Exiv2 library is outside the repository. An image that has been opened and read is modelled
by what the extractor asks of it: its pixel dimensions and three ordered containers of entries.
An entry is known by its key and by the result of `toString()`; an Exif entry also by its
rational components (`count()`, `toRational(i)`) and by `toInt64()`. Floating-point numbers are
modelled by exact rationals. -/

/-- A `QString`. -/
abbrev QString := List Char

/-- The struct `PhotoData` with its default member initialisers. -/
structure PhotoData where
  width : Int := 0
  height : Int := 0
  make : QString := []
  model : QString := []
  iso : QString := []
  aperture : QString := []
  exposure : QString := []
  gpsLat : ℚ := 0
  gpsLon : ℚ := 0
  gpsAlt : ℚ := 0
  takenAt : QDateTime := QDateTime.null
  title : QString := []
  description : QString := []
  copyright : QString := []
  caption : QString := []
  country : QString := []
  city : QString := []
  province : QString := []
  countryCode : QString := []
  keywords : List QString := []
  deriving DecidableEq

/-- An entry of `Exiv2::IptcData` or `Exiv2::XmpData`. -/
structure Datum where
  key : StdString
  toString : StdString
  deriving DecidableEq, Repr

/-- An entry of `Exiv2::ExifData`. -/
structure Exifdatum where
  key : StdString
  toString : StdString
  rationals : List (Int × Int) := []
  toInt64 : Int := 0
  deriving DecidableEq, Repr

/-- The method `Exifdatum::count()`. -/
def Exifdatum.count (d : Exifdatum) : Nat := d.rationals.length

/-- The quotient `toRational(i).first / (double) toRational(i).second`, over the rationals.
A quotient with denominator 0 is not a rational number (the `double` is infinite or not a
number); the value 0 that the model gives it is a convention, and the properties of the GPS
conversion are stated for denominators other than 0. -/
def Exifdatum.quotient (d : Exifdatum) (i : Nat) : ℚ :=
  ((d.rationals.getD i (0, 1)).1 : ℚ) / ((d.rationals.getD i (0, 1)).2 : ℚ)

/-- An image after `ImageFactory::open` and `readMetadata`. -/
structure Image where
  pixelWidth : Int
  pixelHeight : Int
  exifData : List Exifdatum
  iptcData : List Datum
  xmpData : List Datum

/-- The call `exifData.findKey(key)`: the first entry with that key. -/
def findExifKey (exifData : List Exifdatum) (key : StdString) : Option Exifdatum :=
  exifData.find? fun d => d.key = key

/-- The call `findKey(key)` on IPTC or XMP data, as an iterator: the part of the container that
starts at the first entry with that key; the empty list is `end()`. -/
def findKey : List Datum → StdString → List Datum
  | [], _ => []
  | d :: ds, key => if d.key = key then d :: ds else findKey ds key

/-- The function `getGpsCoordinate` of MetadataExtractor.cpp. -/
def getGpsCoordinate (exifData : List Exifdatum) (key refKey : StdString) : ℚ :=
  match findExifKey exifData key with
  | none => 0
  | some datum =>
      if datum.count < 3 then 0
      else
        let degrees := datum.quotient 0
        let minutes := datum.quotient 1
        let seconds := datum.quotient 2
        let decimal := degrees + minutes / 60 + seconds / 3600
        match findExifKey exifData refKey with
        | some refPos =>
            if refPos.toString = "S".toList ∨ refPos.toString = "W".toList then decimal * (-1)
            else decimal
        | none => decimal

/-- The function `getGpsAltitude` of MetadataExtractor.cpp. -/
def getGpsAltitude (exifData : List Exifdatum) : ℚ :=
  match findExifKey exifData "Exif.GPSInfo.GPSAltitude".toList with
  | none => 0
  | some datum =>
      if datum.count < 1 then 0
      else
        let alt := datum.quotient 0
        match findExifKey exifData "Exif.GPSInfo.GPSAltitudeRef".toList with
        | some refPos => if refPos.toInt64 = 1 then alt * (-1) else alt
        | none => alt

/-- The predicate `QChar::isSpace()`: the control characters U+0009 to U+000D and U+0085, and
the Unicode separators. -/
def isSpace (c : Char) : Bool :=
  let n := c.toNat
  decide ((9 ≤ n ∧ n ≤ 13) ∨ n = 32 ∨ n = 133 ∨ n = 160 ∨ n = 5760 ∨ (8192 ≤ n ∧ n ≤ 8202)
    ∨ n = 8232 ∨ n = 8233 ∨ n = 8239 ∨ n = 8287 ∨ n = 12288)

/-- The method `QString::trimmed()`. -/
def trimmed (s : QString) : QString :=
  ((s.dropWhile isSpace).reverse.dropWhile isSpace).reverse

/-- The call `s.split(sep)` keeping empty parts. -/
def splitKeepEmpty (sep : Char) : QString → List QString
  | [] => [[]]
  | c :: cs =>
      match splitKeepEmpty sep cs with
      | [] => [[c]]
      | part :: parts => if c = sep then [] :: part :: parts else (c :: part) :: parts

/-- The call `s.split(sep, Qt::SkipEmptyParts)`. -/
def split (s : QString) (sep : Char) : List QString :=
  (splitKeepEmpty sep s).filter fun part => part ≠ []

/-- The lambda `addKeywords` that `MetadataExtractor::extract` defines: the keyword list after
the call `addKeywords(rawValue)`. The lambda is defined in the source and never called. -/
def addKeywords (keywords : List QString) (rawValue : QString) : List QString :=
  (split rawValue ',').foldl
    (fun kws part =>
      let clean := trimmed part
      if clean ≠ [] ∧ clean ∉ kws then kws ++ [clean] else kws)
    keywords

/-- The keyword loop over IPTC data: `pos` is the iterator (the rest of the container), the
loop runs while `pos` is not at the end and points to an entry with the keyword key. -/
def iptcKeywordLoop : List Datum → List QString → List QString
  | [], keywords => keywords
  | pos :: rest, keywords =>
      if pos.key = "Iptc.Application2.Keywords".toList then
        let val := pos.toString
        iptcKeywordLoop rest (if val ∉ keywords then keywords ++ [val] else keywords)
      else keywords

/-- The keyword loop over XMP data: every entry is visited, those with key `Xmp.dc.subject`
contribute. -/
def xmpSubjectLoop : List Datum → List QString → List QString
  | [], keywords => keywords
  | pos :: rest, keywords =>
      if pos.key = "Xmp.dc.subject".toList then
        let val := pos.toString
        xmpSubjectLoop rest (if val ∉ keywords then keywords ++ [val] else keywords)
      else xmpSubjectLoop rest keywords

/-- The lambdas `getIptc` and `getXmp`: the value of the first entry with key `k`, or the
empty string. -/
def getValue (data : List Datum) (k : StdString) : QString :=
  match findKey data k with
  | [] => []
  | p :: _ => p.toString

/-- The lambda `getExif`. -/
def getExif (exifData : List Exifdatum) (k : StdString) : QString :=
  match findExifKey exifData k with
  | some p => p.toString
  | none => []

/-- The Exif block of `MetadataExtractor::extract`. -/
def extractExif (fromString : QString → QDateTime) (exifData : List Exifdatum)
    (data : PhotoData) : PhotoData :=
  if exifData.isEmpty then data
  else
    let d := getExif exifData "Exif.Photo.DateTimeOriginal".toList
    { data with
      make := getExif exifData "Exif.Image.Make".toList
      model := getExif exifData "Exif.Image.Model".toList
      iso := getExif exifData "Exif.Photo.ISOSpeedRatings".toList
      aperture := getExif exifData "Exif.Photo.FNumber".toList
      exposure := getExif exifData "Exif.Photo.ExposureTime".toList
      takenAt := if d ≠ [] then fromString d else data.takenAt
      gpsLat := getGpsCoordinate exifData "Exif.GPSInfo.GPSLatitude".toList
        "Exif.GPSInfo.GPSLatitudeRef".toList
      gpsLon := getGpsCoordinate exifData "Exif.GPSInfo.GPSLongitude".toList
        "Exif.GPSInfo.GPSLongitudeRef".toList
      gpsAlt := getGpsAltitude exifData }

/-- The IPTC block of `MetadataExtractor::extract`. -/
def extractIptc (iptcData : List Datum) (data : PhotoData) : PhotoData :=
  if iptcData.isEmpty then data
  else
    { data with
      title := getValue iptcData "Iptc.Application2.ObjectName".toList
      caption := getValue iptcData "Iptc.Application2.Caption".toList
      city := getValue iptcData "Iptc.Application2.City".toList
      province := getValue iptcData "Iptc.Application2.ProvinceState".toList
      country := getValue iptcData "Iptc.Application2.CountryName".toList
      countryCode := getValue iptcData "Iptc.Application2.CountryCode".toList
      copyright := getValue iptcData "Iptc.Application2.Copyright".toList
      keywords :=
        iptcKeywordLoop (findKey iptcData "Iptc.Application2.Keywords".toList) data.keywords }

/-- The XMP block of `MetadataExtractor::extract`: the subject loop, then the seven fallback
assignments, each of which tests and sets one field of its own. -/
def extractXmp (xmpData : List Datum) (data : PhotoData) : PhotoData :=
  if xmpData.isEmpty then data
  else
    { data with
      keywords := xmpSubjectLoop xmpData data.keywords
      city :=
        if data.city.isEmpty then getValue xmpData "Xmp.photoshop.City".toList else data.city
      province :=
        if data.province.isEmpty then getValue xmpData "Xmp.photoshop.State".toList
        else data.province
      country :=
        if data.country.isEmpty then getValue xmpData "Xmp.photoshop.Country".toList
        else data.country
      countryCode :=
        if data.countryCode.isEmpty then getValue xmpData "Xmp.iptcCore.CountryCode".toList
        else data.countryCode
      title := if data.title.isEmpty then getValue xmpData "Xmp.dc.title".toList else data.title
      description :=
        if data.description.isEmpty then getValue xmpData "Xmp.dc.description".toList
        else data.description
      copyright :=
        if data.copyright.isEmpty then getValue xmpData "Xmp.dc.rights".toList
        else data.copyright }

/-- The function `MetadataExtractor::extract`. The argument `image` is the outcome of opening
the file and reading its metadata (`none` when that fails or throws); `fromString` is the
library call `QDateTime::fromString(_, "yyyy:MM:dd HH:mm:ss")`. -/
def extract (fromString : QString → QDateTime) (image : Option Image) : PhotoData :=
  let data : PhotoData := {}
  match image with
  | none => data
  | some image =>
      let data := { data with width := image.pixelWidth, height := image.pixelHeight }
      let data := extractExif fromString image.exifData data
      let data := extractIptc image.iptcData data
      extractXmp image.xmpData data

/-- Specification vocabulary: the values of all the entries with key `k`, in order. -/
def valuesOf (data : List Datum) (k : StdString) : List QString :=
  (data.filter fun d => d.key = k).map Datum.toString

/-- Specification vocabulary: a list without its repetitions, every value at the place of its
first occurrence. -/
def firstOccurrences (vs : List QString) : List QString :=
  vs.foldl (fun acc v => if v ∈ acc then acc else acc ++ [v]) []

/-- Specification, in the words of the design document: the keywords are the values of all the
IPTC keyword entries followed by the values of all the XMP subject entries, without
repetitions. -/
def specKeywords (iptcData xmpData : List Datum) : List QString :=
  firstOccurrences (valuesOf iptcData "Iptc.Application2.Keywords".toList
    ++ valuesOf xmpData "Xmp.dc.subject".toList)

/-- An example image: two IPTC keyword entries with a city entry between them. -/
def scatteredKeywordsImage : Image where
  pixelWidth := 4
  pixelHeight := 3
  exifData := []
  iptcData := [⟨"Iptc.Application2.Keywords".toList, "sea".toList⟩,
    ⟨"Iptc.Application2.City".toList, "Paris".toList⟩,
    ⟨"Iptc.Application2.Keywords".toList, "sun".toList⟩]
  xmpData := []

/-- An example image: one XMP subject entry with a comma-joined value. -/
def commaJoinedImage : Image where
  pixelWidth := 4
  pixelHeight := 3
  exifData := []
  iptcData := []
  xmpData := [⟨"Xmp.dc.subject".toList, "Beijing, China, CHN".toList⟩]

/-- Specification vocabulary: `d` is the first entry of `exifData` that has key `k`. -/
def FirstWithKey (exifData : List Exifdatum) (k : StdString) (d : Exifdatum) : Prop :=
  ∃ pre post, exifData = pre ++ d :: post ∧ (∀ e ∈ pre, e.key ≠ k) ∧ d.key = k

/-- Specification vocabulary: the reference field `refKey` is present and reads `S` or `W`. -/
def ReadsSouthOrWest (exifData : List Exifdatum) (refKey : StdString) : Prop :=
  ∃ r, FirstWithKey exifData refKey r ∧ (r.toString = "S".toList ∨ r.toString = "W".toList)

/-- Specification vocabulary: degrees, minutes and seconds, each a pair of numerator and
denominator, as decimal degrees. -/
def decimalDegrees (deg min sec : Int × Int) : ℚ :=
  (deg.1 : ℚ) / (deg.2 : ℚ) + ((min.1 : ℚ) / (min.2 : ℚ)) / 60 + ((sec.1 : ℚ) / (sec.2 : ℚ)) / 3600

/-- An example of Exif data: latitude 40° 26' 46'' with reference `S`. -/
def southLatitudeExif : List Exifdatum :=
  [{ key := "Exif.GPSInfo.GPSLatitudeRef".toList, toString := "S".toList },
   { key := "Exif.GPSInfo.GPSLatitude".toList, toString := "40/1 26/1 46/1".toList,
     rationals := [(40, 1), (26, 1), (46, 1)] }]

/-! ## The date cascade of `workerLoop` (main.cpp) -/

/-- Step 3 of the loop body of `workerLoop` (the date cascade): the value of `finalDateTime`.
The argument `lastModified` is the result of `getFileLastModified(srcPath)`. -/
def workerLoop.finalDateTime (meta : PhotoData) (fInfo : FileInfo) (lastModified : QDateTime) :
    QDateTime :=
  if meta.takenAt.isValid then meta.takenAt
  else
    let nameDate := extractDateFromFilename fInfo.cleanName
    if nameDate.isValid then nameDate else lastModified

/-! ## `DbManager` (DbManager.cpp)

The database engine is outside the repository. A connection is modelled by the durable store,
the working copy of an open transaction, and the trace of calls made on the connection. What
a statement does to the store and what it answers is left to the engine, a parameter: the
properties below hold for every engine. The calls `transaction()`, `commit()` and `rollback()`
have their usual meaning: statements inside a transaction act on a working copy, which
`commit()` publishes and `rollback()` discards. -/

/-- The struct `WorkerPayload` (DbManager.h). -/
structure WorkerPayload where
  filename : StdString
  relPath : StdString
  fullPath : StdString
  user : StdString
  fileSize : Int
  fileDate : QDateTime
  meta : PhotoData

/-- The SQL statements that `DbManager` prepares, with their bound values. -/
inductive Stmt where
  | insertPicture (fn fp full : QString) (sz w h : Int) (dt : QDateTime) (usr : QString)
  | insertLocation (id : Int) (c cc p ci : QString)
  | insertExif (id : Int) (mk md iso ap exp : QString) (lat lon : ℚ) (dto : QDateTime)
  | insertIptc (id : Int) (obj cap copy : QString)
  | selectKeyword (t : QString)
  | insertKeyword (t : QString)
  | insertLink (pid kid : Int)
  deriving DecidableEq

/-- What a `QSqlQuery` reports after `exec()`: whether `exec()` returned true, and the value
`value(0)` of the first row when `next()` returns true. -/
structure QueryResult where
  execOk : Bool
  row : Option Int
  deriving DecidableEq, Repr

/-- The test `q.exec() && q.next()`. -/
def QueryResult.hasRow (r : QueryResult) : Bool := r.execOk && r.row.isSome

/-- The database engine: the effect of one statement on a store and its answer. -/
structure Engine (σ : Type) where
  run : Stmt → σ → σ × QueryResult

/-- The calls made on a connection. -/
inductive Event where
  | transaction
  | exec (s : Stmt)
  | commit
  | rollback
  | close
  deriving DecidableEq

/-- An open `QSqlDatabase` connection. -/
structure QSqlDatabase (σ : Type) where
  durable : σ
  working : Option σ
  trace : List Event

/-- The call `db.transaction()`. -/
def QSqlDatabase.transaction {σ : Type} (db : QSqlDatabase σ) : QSqlDatabase σ :=
  { db with working := some db.durable, trace := db.trace ++ [Event.transaction] }

/-- The call `db.commit()`. -/
def QSqlDatabase.commit {σ : Type} (db : QSqlDatabase σ) : QSqlDatabase σ :=
  { durable := db.working.getD db.durable, working := none, trace := db.trace ++ [Event.commit] }

/-- The call `db.rollback()`. -/
def QSqlDatabase.rollback {σ : Type} (db : QSqlDatabase σ) : QSqlDatabase σ :=
  { db with working := none, trace := db.trace ++ [Event.rollback] }

/-- The call `db.close()`: a transaction still open is discarded. -/
def QSqlDatabase.close {σ : Type} (db : QSqlDatabase σ) : QSqlDatabase σ :=
  { db with working := none, trace := db.trace ++ [Event.close] }

/-- Preparing, binding and executing one query on the connection. -/
def QSqlDatabase.exec {σ : Type} (engine : Engine σ) (db : QSqlDatabase σ) (s : Stmt) :
    QSqlDatabase σ × QueryResult :=
  match db.working with
  | some w =>
      let r := engine.run s w
      ({ db with working := some r.1, trace := db.trace ++ [Event.exec s] }, r.2)
  | none =>
      let r := engine.run s db.durable
      ({ db with durable := r.1, trace := db.trace ++ [Event.exec s] }, r.2)

/-- The call `QVariant::toInt()` on an integer value of the database: the value as a C++
`int`, that is, reduced to 32 bits in two's complement. -/
def QVariant.toInt (v : Int) : Int := (v + 2147483648) % 4294967296 - 2147483648

/-- The function `DbManager::getOrCreateKeywordId`. -/
def getOrCreateKeywordId {σ : Type} (engine : Engine σ) (db : QSqlDatabase σ) (tag : QString) :
    QSqlDatabase σ × Int :=
  let r1 := db.exec engine (Stmt.selectKeyword tag)
  match r1.2.execOk, r1.2.row with
  | true, some id => (r1.1, QVariant.toInt id)
  | _, _ =>
      let r2 := r1.1.exec engine (Stmt.insertKeyword tag)
      match r2.2.execOk, r2.2.row with
      | true, some id => (r2.1, QVariant.toInt id)
      | _, _ =>
          let r3 := r2.1.exec engine (Stmt.selectKeyword tag)
          match r3.2.execOk, r3.2.row with
          | true, some id => (r3.1, QVariant.toInt id)
          | _, _ => (r3.1, -1)

/-- The statement of step 1 of `insertPhoto`. -/
def pictureStmt (p : WorkerPayload) : Stmt :=
  Stmt.insertPicture p.filename p.relPath p.fullPath p.fileSize p.meta.width p.meta.height
    p.fileDate p.user

/-- The statement of step 2 of `insertPhoto`. -/
def locationStmt (picId : Int) (p : WorkerPayload) : Stmt :=
  Stmt.insertLocation picId p.meta.country p.meta.countryCode p.meta.province p.meta.city

/-- The statement of step 3 of `insertPhoto`. -/
def exifStmt (picId : Int) (p : WorkerPayload) : Stmt :=
  Stmt.insertExif picId p.meta.make p.meta.model p.meta.iso p.meta.aperture p.meta.exposure
    p.meta.gpsLat p.meta.gpsLon p.meta.takenAt

/-- The statement of step 4 of `insertPhoto`. -/
def iptcStmt (picId : Int) (p : WorkerPayload) : Stmt :=
  Stmt.insertIptc picId p.meta.title p.meta.caption p.meta.copyright

/-- One round of the keyword loop of `insertPhoto` (step 5). -/
def keywordStep {σ : Type} (engine : Engine σ) (picId : Int) (db : QSqlDatabase σ)
    (k : QString) : QSqlDatabase σ :=
  if (trimmed k).isEmpty then db
  else
    let r := getOrCreateKeywordId engine db (trimmed k)
    if 0 < r.2 then (r.1.exec engine (Stmt.insertLink picId r.2)).1 else r.1

/-- The function `DbManager::insertPhoto`, from the attempt to open the connection to the
final `return`. `openOk` is the result of `db.open()`, `store` the durable content of the
database before the call. Returned: the truth value and the connection after the call. -/
def insertPhoto {σ : Type} (engine : Engine σ) (openOk : Bool) (store : σ)
    (p : WorkerPayload) : Bool × QSqlDatabase σ :=
  let db : QSqlDatabase σ := { durable := store, working := none, trace := [] }
  if !openOk then (false, db)
  else
    let db := db.transaction
    let ok := true
    let picId : Int := -1
    let q := db.exec engine (pictureStmt p)
    let db := q.1
    let (ok, picId) :=
      match q.2.execOk, q.2.row with
      | true, some id => (ok, id)
      | _, _ => (false, picId)
    let (ok, db) :=
      if ok then
        let qLoc := db.exec engine (locationStmt picId p)
        let ok := if !qLoc.2.execOk then false else ok
        let qExif := qLoc.1.exec engine (exifStmt picId p)
        let ok := if !qExif.2.execOk then false else ok
        let qIptc := qExif.1.exec engine (iptcStmt picId p)
        let ok := if !qIptc.2.execOk then false else ok
        (ok, p.meta.keywords.foldl (keywordStep engine picId) qIptc.1)
      else (ok, db)
    let db := if ok then db.commit else db.rollback
    (ok, db.close)

/-- Specification vocabulary for `insertPhoto`: the answer of the picture insert, run on the
store as it is before the call. -/
def pictureAnswer {σ : Type} (engine : Engine σ) (store : σ) (p : WorkerPayload) :
    σ × QueryResult :=
  engine.run (pictureStmt p) store

/-- Specification vocabulary: the picture insert succeeds and generates `picId`. -/
def PictureInserted {σ : Type} (engine : Engine σ) (store : σ) (p : WorkerPayload)
    (picId : Int) : Prop :=
  (pictureAnswer engine store p).2.execOk = true ∧ (pictureAnswer engine store p).2.row = some picId

/-- Specification vocabulary: the answer of the `meta_location` insert, run after the picture
insert. -/
def locationAnswer {σ : Type} (engine : Engine σ) (store : σ) (p : WorkerPayload)
    (picId : Int) : σ × QueryResult :=
  engine.run (locationStmt picId p) (pictureAnswer engine store p).1

/-- Specification vocabulary: the answer of the `meta_exif` insert, run after the
`meta_location` insert. -/
def exifAnswer {σ : Type} (engine : Engine σ) (store : σ) (p : WorkerPayload)
    (picId : Int) : σ × QueryResult :=
  engine.run (exifStmt picId p) (locationAnswer engine store p picId).1

/-- Specification vocabulary: the answer of the `meta_iptc` insert, run after the `meta_exif`
insert. -/
def iptcAnswer {σ : Type} (engine : Engine σ) (store : σ) (p : WorkerPayload)
    (picId : Int) : σ × QueryResult :=
  engine.run (iptcStmt picId p) (exifAnswer engine store p picId).1

/-- Specification vocabulary: the connection is inside a transaction begun on `store`, and
the transaction has been neither committed nor rolled back so far. -/
def InTransaction {σ : Type} (store : σ) (db : QSqlDatabase σ) : Prop :=
  db.durable = store ∧ db.working.isSome = true ∧ Event.commit ∉ db.trace
    ∧ Event.rollback ∉ db.trace

/-- Specification vocabulary: the connection as it is after the four inserts of `insertPhoto`
have been executed inside the transaction, before the keyword loop. -/
def afterInserts {σ : Type} (engine : Engine σ) (store : σ) (p : WorkerPayload) (picId : Int) :
    QSqlDatabase σ :=
  { durable := store
    working := some (iptcAnswer engine store p picId).1
    trace := [Event.transaction, Event.exec (pictureStmt p), Event.exec (locationStmt picId p),
      Event.exec (exifStmt picId p), Event.exec (iptcStmt picId p)] }

/-- Specification vocabulary: the store after the statements have been run on it, in order. -/
def runStmts {σ : Type} (engine : Engine σ) (stmts : List Stmt) (store : σ) : σ :=
  stmts.foldl (fun s st => (engine.run st s).1) store

/-- Specification vocabulary: the connection is inside a transaction begun on `store` in which
exactly the statements `stmts` have been executed, in this order: the durable store is
untouched, the working copy is the store after these statements, and the calls made are the
opening of the transaction and these statements. -/
def Executed {σ : Type} (engine : Engine σ) (store : σ) (db : QSqlDatabase σ)
    (stmts : List Stmt) : Prop :=
  db.durable = store ∧ db.working = some (runStmts engine stmts store)
    ∧ db.trace = Event.transaction :: stmts.map Event.exec

/-- Specification vocabulary: the four inserts of `insertPhoto` for the picture id `picId`. -/
def fourInserts (picId : Int) (p : WorkerPayload) : List Stmt :=
  [pictureStmt p, locationStmt picId p, exifStmt picId p, iptcStmt picId p]

/-- Specification vocabulary: `s` is a statement of the keyword step of `insertPhoto` for the
picture `picId` and the keywords `keywords`: the lookup or the insert of a keyword of the list
whose trimmed text is not empty, or a link of the picture to a keyword id. -/
def KeywordStmtFor (picId : Int) (keywords : List QString) (s : Stmt) : Prop :=
  ∃ k ∈ keywords, trimmed k ≠ []
    ∧ (s = Stmt.selectKeyword (trimmed k) ∨ s = Stmt.insertKeyword (trimmed k)
      ∨ ∃ kid, s = Stmt.insertLink picId kid)

/-- Whether a statement belongs to the keyword step (keyword lookup, keyword insert, link). -/
def Stmt.isKeywordStmt : Stmt → Bool
  | .selectKeyword _ => true
  | .insertKeyword _ => true
  | .insertLink _ _ => true
  | _ => false

/-! ### A small concrete engine

Used to run `insertPhoto` on examples: the store is the list of statements that succeeded, and
a statement fails when the predicate `fails` says so. A picture insert answers the id 1, a
keyword insert the id 7, a keyword lookup finds nothing. -/

/-- The example engine. -/
def listEngine (fails : Stmt → Bool) : Engine (List Stmt) where
  run s store :=
    if fails s then (store, ⟨false, none⟩)
    else
      match s with
      | .insertPicture .. => (store ++ [s], ⟨true, some 1⟩)
      | .insertKeyword _ => (store ++ [s], ⟨true, some 7⟩)
      | .selectKeyword _ => (store, ⟨true, none⟩)
      | _ => (store ++ [s], ⟨true, none⟩)

/-- An example payload with one keyword. -/
def samplePayload : WorkerPayload where
  filename := "a.jpg".toList
  relPath := "2023".toList
  fullPath := "Photos/2023/a.jpg".toList
  user := "alice".toList
  fileSize := 10
  fileDate := QDateTime.null
  meta := { keywords := ["sea".toList] }

/-- Failure predicate of the example engine: the `meta_exif` insert fails. -/
def exifFails : Stmt → Bool
  | .insertExif .. => true
  | _ => false

/-- Failure predicate of the example engine: the picture insert fails. -/
def pictureFails : Stmt → Bool
  | .insertPicture .. => true
  | _ => false

/-! ## Path planning and the payload of `workerLoop` (main.cpp)

A `std::filesystem::path` is modelled by its pathname in the generic format of a POSIX system,
with `/` as separator. The operations below follow the C++ standard for the paths that the
worker handles: relative paths, and paths with a single leading separator. -/

/-- A `std::filesystem::path`. -/
abbrev FsPath := StdString

/-- The constant `INBOX_DIR`. -/
def INBOX_DIR : FsPath := "uploads".toList

/-- The constant `PHOTOS_ROOT`. -/
def PHOTOS_ROOT : FsPath := "Photos".toList

/-- The method `path::filename()`: what follows the last separator. -/
def FsPath.filename (p : FsPath) : FsPath :=
  (p.reverse.takeWhile fun c => c ≠ '/').reverse

/-- The method `path::has_filename()`. -/
def FsPath.has_filename (p : FsPath) : Bool := !(FsPath.filename p).isEmpty

/-- The method `path::is_absolute()` on a POSIX system: the path starts with a separator. -/
def FsPath.is_absolute (p : FsPath) : Bool := p.head? = some '/'

/-- The operator `lhs / rhs`: an absolute `rhs` replaces `lhs`; otherwise a separator is
added when `lhs` has a filename, and `rhs` is appended. -/
def FsPath.append (lhs rhs : FsPath) : FsPath :=
  if FsPath.is_absolute rhs then rhs
  else if FsPath.has_filename lhs then lhs ++ '/' :: rhs
  else lhs ++ rhs

/-- The method `path::parent_path()`: the path without its last element. The filename is
removed, then the separators before it; when nothing else is left of a path that starts with a
separator, the root directory is the result. -/
def FsPath.parent_path (p : FsPath) : FsPath :=
  let dir := (p.reverse.dropWhile fun c => c ≠ '/').reverse
  let stripped := (dir.reverse.dropWhile fun c => c = '/').reverse
  if stripped.isEmpty then (if dir.isEmpty then [] else ['/']) else stripped

/-- The elements of a path in the order of iteration, for a pathname without repeated or
trailing separators: the root directory `/` of an absolute path, then the filenames. -/
def FsPath.elements (p : FsPath) : List FsPath :=
  (if FsPath.is_absolute p then [['/']] else [])
    ++ (splitKeepEmpty '/' p).filter fun e => e ≠ []

/-- The call `std::mismatch` on two sequences of elements: what is left of each after their
common beginning. -/
def FsPath.mismatch : List FsPath → List FsPath → List FsPath × List FsPath
  | x :: xs, y :: ys => if x = y then FsPath.mismatch xs ys else (x :: xs, y :: ys)
  | [], ys => ([], ys)
  | x :: xs, [] => (x :: xs, [])

/-- The method `p.lexically_relative(base)` on a POSIX system (no root names), after the C++
standard: the empty path when only one of the two is absolute; `.` when the two have the same
elements; otherwise one `..` for every element of `base` after the common beginning (an
element `..` of `base` counting negatively), followed by the elements of `p` after the common
beginning. -/
def FsPath.lexically_relative (p base : FsPath) : FsPath :=
  if FsPath.is_absolute p ≠ FsPath.is_absolute base then []
  else
    let ab := FsPath.mismatch (FsPath.elements p) (FsPath.elements base)
    if ab.1 = [] ∧ ab.2 = [] then ['.']
    else
      let n : Int :=
        ((ab.2.filter fun e => e ≠ ['.'] ∧ e ≠ ['.', '.']).length : Int)
          - ((ab.2.filter fun e => e = ['.', '.']).length : Int)
      if n < 0 then []
      else if n = 0 ∧ ab.1 = [] then ['.']
      else (List.replicate n.toNat ['.', '.'] ++ ab.1).foldl FsPath.append []

/-- The function `fs::relative(p, base)`, after the C++ standard:
`weakly_canonical(p).lexically_relative(weakly_canonical(base))`. The function
`weakly_canonical` depends on the state of the filesystem (the current directory and the
symbolic links) and is an argument. -/
def FsPath.relative (weakly_canonical : FsPath → FsPath) (p base : FsPath) : FsPath :=
  FsPath.lexically_relative (weakly_canonical p) (weakly_canonical base)

/-- The body of the loop of `workerLoop` for one directory entry, up to the payload that is
handed to `DbManager::insertPhoto`; `none` when no payload is built (the entry is skipped or
an exception ends the round). The arguments stand for what the body obtains from its
surroundings: `is_regular_file` and `srcPath` from the entry, `weakly_canonical` for the state
of the filesystem that `fs::relative` consults, `image` for the outcome of opening the file
and reading its metadata, `lastModified` for `getFileLastModified(srcPath)`, and `moved` for
the filesystem steps (creating the target directory, removing an existing target, renaming,
reading the size): the size of the moved file, or `none` when one of the steps throws. -/
def workerLoop.processEntry (fromString : QString → QDateTime) (is_regular_file : Bool)
    (srcPath : FsPath) (weakly_canonical : FsPath → FsPath) (image : Option Image)
    (lastModified : QDateTime) (moved : Option Int) : Option WorkerPayload :=
  if !is_regular_file then none
  else
    let rawName := FsPath.filename srcPath
    if rawName.head? = some '.' then none
    else do
      let fInfo ← parseFilename rawName
      let meta := extract fromString image
      let finalDateTime := workerLoop.finalDateTime meta fInfo lastModified
      let relObj := FsPath.relative weakly_canonical srcPath INBOX_DIR
      let relPathStructure := FsPath.parent_path relObj
      let targetDir := FsPath.append PHOTOS_ROOT relPathStructure
      let destPath := FsPath.append targetDir fInfo.cleanName
      let fileSize ← moved
      pure
        { filename := fInfo.cleanName
          relPath := relPathStructure
          fullPath := destPath
          user := fInfo.user
          fileSize := fileSize
          fileDate := finalDateTime
          meta := meta }

/-- Specification vocabulary: the pathname made of the given elements, in order, with a
separator between neighbours. -/
def joinPath : List StdString → FsPath
  | [] => []
  | [c] => c
  | c :: e :: rest => c ++ '/' :: joinPath (e :: rest)

/-- An example of a filesystem: the current directory is `/srv` and nothing is reached through
a symbolic link, so that a relative path is made canonical by putting `/srv/` before it. -/
def plainCanonical (p : FsPath) : FsPath := "/srv/".toList ++ p

/-- An example of a filesystem: the current directory is `/srv`, and the entry
`uploads/s/carol___link.jpg` is a symbolic link to the regular file `/srv/elsewhere/real.jpg`;
nothing else is reached through a symbolic link. -/
def symlinkCanonical (p : FsPath) : FsPath :=
  if p = "uploads/s/carol___link.jpg".toList then "/srv/elsewhere/real.jpg".toList
  else "/srv/".toList ++ p

/-- An example image without any metadata. -/
def plainImage : Image where
  pixelWidth := 4
  pixelHeight := 3
  exifData := []
  iptcData := []
  xmpData := []

/-! # Theorems -/

/-! ## Basic facts about `find` -/

theorem isPrefixOf_iff_take (pat s : StdString) :
    pat.isPrefixOf s = true ↔ pat.length ≤ s.length ∧ s.take pat.length = pat := by
  rw [ List.isPrefixOf_iff_prefix]
  constructor
  · intro h
    exact ⟨h.length_le, ( List.prefix_iff_eq_take.mp h).symm⟩
  · rintro ⟨_, h⟩
    rw [← h]
    exact List.take_prefix _ _

theorem occursAt_iff_isPrefixOf (pat s : StdString) (i : Nat) (hi : i ≤ s.length) :
    OccursAt pat s i ↔ pat.isPrefixOf (s.drop i) = true := by
  rw [isPrefixOf_iff_take, OccursAt, List.length_drop]
  constructor
  · rintro ⟨h1, h2⟩
    exact ⟨by omega, h2⟩
  · rintro ⟨h1, h2⟩
    exact ⟨by omega, h2⟩

theorem OccursAt.le_length {pat s : StdString} {i : Nat} (h : OccursAt pat s i) :
    i ≤ s.length := by
  have := h.1
  omega

/-- What `findAt` returns when it finds something. -/
theorem findAt_eq_some (pat : StdString) :
    ∀ (s : StdString) (k j : Nat), findAt pat s k = some j →
      ∃ d, j = k + d ∧ OccursAt pat s d ∧ ∀ e < d, ¬ OccursAt pat s e := by
  intro s
  induction s with
  | nil =>
    intro k j h
    simp only [findAt] at h
    split at h
    · rename_i hp
      refine ⟨0, by simpa using (Option.some.inj h).symm, ?_, by simp⟩
      exact (occursAt_iff_isPrefixOf pat [] 0 (by simp)).mpr (by simpa using hp)
    · simp at h
  | cons c t ih =>
    intro k j h
    simp only [findAt] at h
    split at h
    · rename_i hp
      refine ⟨0, by simpa using (Option.some.inj h).symm, ?_, by simp⟩
      exact (occursAt_iff_isPrefixOf pat (c :: t) 0 (by simp)).mpr (by simpa using hp)
    · rename_i hp
      obtain ⟨d, hj, hocc, hmin⟩ := ih (k + 1) j h
      refine ⟨d + 1, by omega, ?_, ?_⟩
      · have hd := hocc.le_length
        rw [occursAt_iff_isPrefixOf _ _ _ hd] at hocc
        rw [occursAt_iff_isPrefixOf _ _ _ (by simpa using hd)]
        simpa using hocc
      · intro e he hoe
        cases e with
        | zero =>
          rw [occursAt_iff_isPrefixOf _ _ _ (by simp)] at hoe
          exact hp (by simpa using hoe)
        | succ e =>
          have hle := hoe.le_length
          rw [occursAt_iff_isPrefixOf _ _ _ hle] at hoe
          have hle2 : e ≤ t.length := by simpa using hle
          exact hmin e (by omega) ((occursAt_iff_isPrefixOf _ _ _ hle2).mpr (by simpa using hoe))

/-- When `findAt` finds nothing, there is no occurrence. -/
theorem findAt_eq_none (pat : StdString) :
    ∀ (s : StdString) (k : Nat), findAt pat s k = none → ∀ e, ¬ OccursAt pat s e := by
  intro s
  induction s with
  | nil =>
    intro k h e hoe
    simp only [findAt] at h
    split at h
    · simp at h
    · rename_i hp
      have hle := hoe.le_length
      have he : e = 0 := by simpa using hle
      subst he
      rw [occursAt_iff_isPrefixOf _ _ _ (by simp)] at hoe
      exact hp (by simpa using hoe)
  | cons c t ih =>
    intro k h e hoe
    simp only [findAt] at h
    split at h
    · simp at h
    · rename_i hp
      cases e with
      | zero =>
        rw [occursAt_iff_isPrefixOf _ _ _ (by simp)] at hoe
        exact hp (by simpa using hoe)
      | succ e =>
        have hle := hoe.le_length
        rw [occursAt_iff_isPrefixOf _ _ _ hle] at hoe
        have hle2 : e ≤ t.length := by simpa using hle
        exact ih (k + 1) h e ((occursAt_iff_isPrefixOf _ _ _ hle2).mpr (by simpa using hoe))

theorem occursAt_drop (pat s : StdString) (pos d : Nat) (hpos : pos ≤ s.length) :
    OccursAt pat (s.drop pos) d ↔ OccursAt pat s (pos + d) := by
  unfold OccursAt
  rw [List.length_drop, List.drop_drop]
  constructor
  · rintro ⟨h1, h2⟩
    exact ⟨by omega, h2⟩
  · rintro ⟨h1, h2⟩
    exact ⟨by omega, h2⟩

/-- What `find` returns when it finds something: the least occurrence from `pos` on. -/
theorem find_eq_some {s pat : StdString} {pos j : Nat} (h : find s pat pos = some j) :
    pos ≤ j ∧ OccursAt pat s j ∧ ∀ k < j, pos ≤ k → ¬ OccursAt pat s k := by
  unfold find at h
  split at h
  · simp at h
  · obtain ⟨d, hj, hocc, hmin⟩ := findAt_eq_some pat _ _ _ h
    subst hj
    refine ⟨by omega, (occursAt_drop pat s pos d (by omega)).mp hocc, ?_⟩
    intro k hk hpk hok
    have hk2 : k = pos + (k - pos) := by omega
    rw [hk2] at hok
    exact hmin (k - pos) (by omega) ((occursAt_drop pat s pos _ (by omega)).mpr hok)

/-- When `find` answers `npos`, the pattern does not occur from `pos` on. -/
theorem find_eq_none {s pat : StdString} {pos : Nat} (h : find s pat pos = none) :
    ∀ k, pos ≤ k → ¬ OccursAt pat s k := by
  intro k hk hok
  unfold find at h
  split at h
  · have := hok.le_length
    omega
  · have hk2 : k = pos + (k - pos) := by omega
    rw [hk2] at hok
    exact findAt_eq_none pat _ _ h (k - pos) ((occursAt_drop pat s pos _ (by omega)).mpr hok)

/-- The call `find` returns the least occurrence from `pos` on, when there is one. -/
theorem find_of_least {s pat : StdString} {pos j : Nat} (hpos : pos ≤ j)
    (hocc : OccursAt pat s j) (hmin : ∀ k < j, pos ≤ k → ¬ OccursAt pat s k) :
    find s pat pos = some j := by
  cases hf : find s pat pos with
  | none => exact absurd hocc (find_eq_none hf j hpos)
  | some j2 =>
    obtain ⟨h1, h2, h3⟩ := find_eq_some hf
    rcases Nat.lt_trichotomy j2 j with hlt | heq | hgt
    · exact absurd h2 (hmin j2 hlt h1)
    · rw [heq]
    · exact absurd hocc (h3 j hgt hpos)

/-- The call `find` answers `npos` when there is no occurrence from `pos` on. -/
theorem find_of_absent {s pat : StdString} {pos : Nat}
    (h : ∀ k, pos ≤ k → ¬ OccursAt pat s k) : find s pat pos = none := by
  cases hf : find s pat pos with
  | none => rfl
  | some j =>
    obtain ⟨h1, h2, _⟩ := find_eq_some hf
    exact absurd h2 (h j h1)

theorem marker_length : marker.length = 3 := rfl

/-- The three characters at an occurrence of the marker, spelled out. -/
theorem take_append_marker_append_drop {s : StdString} {i : Nat} (h : OccursAt marker s i) :
    s.take i ++ marker ++ s.drop (i + 3) = s := by
  have h2 := h.2
  rw [marker_length] at h2
  have h3 : s.drop i = (s.drop i).take 3 ++ (s.drop i).drop 3 := (List.take_append_drop 3 _).symm
  rw [h2, List.drop_drop] at h3
  rw [List.append_assoc, ← h3, List.take_append_drop]

/-- The result of `parseFilename` when the marker occurs, in terms of the two searches. -/
theorem parseFilename_of_first {rawName : StdString} {i : Nat}
    (hfind : find rawName marker 0 = some i) :
    parseFilename rawName =
      match find rawName marker (i + 3) with
      | some j => some ⟨rawName.take i, rawName.drop (j + 3)⟩
      | none => some ⟨rawName.take i, rawName.drop (i + 3)⟩ := by
  obtain ⟨_, hocc, _⟩ := find_eq_some hfind
  have hlen := hocc.1
  rw [marker_length] at hlen
  unfold parseFilename
  simp only [hfind]
  cases hf2 : find rawName marker (i + 3) with
  | none =>
    have : ¬ rawName.length < i + 3 := by omega
    simp [substr, substrN, this]
  | some j =>
    obtain ⟨_, hocc2, _⟩ := find_eq_some hf2
    have hlen2 := hocc2.1
    rw [marker_length] at hlen2
    have : ¬ rawName.length < j + 3 := by omega
    simp [substr, substrN, this]

/-- C1. When the marker occurs a second time at or after the position three characters past its
first occurrence `i`, say first at `j`, then `parseFilename` returns the text before index `i`
as user and the text after the marker at `j` as clean name, and this clean name is not the text
after the first marker. -/
theorem parseFilename_second_marker (rawName : StdString) (i j : Nat)
    (hi : OccursAt marker rawName i) (hfirst : ∀ k < i, ¬ OccursAt marker rawName k)
    (hj : OccursAt marker rawName j) (hij : i + 3 ≤ j)
    (hsecond : ∀ k < j, i + 3 ≤ k → ¬ OccursAt marker rawName k) :
    parseFilename rawName = some { user := rawName.take i, cleanName := rawName.drop (j + 3) }
      ∧ rawName.drop (j + 3) ≠ rawName.drop (i + 3) := by
  have hfind : find rawName marker 0 = some i :=
    find_of_least (Nat.zero_le _) hi (fun k hk _ => hfirst k hk)
  have hfind2 : find rawName marker (i + 3) = some j := find_of_least hij hj hsecond
  refine ⟨?_, ?_⟩
  · rw [parseFilename_of_first hfind, hfind2]
  · intro heq
    have hlen := congrArg List.length heq
    have hjl := hj.1
    rw [marker_length] at hjl
    simp only [List.length_drop] at hlen
    omega

/-- Witness for C1: `bob___x___pic.jpg`. -/
theorem parseFilename_second_marker_witness :
    parseFilename "bob___x___pic.jpg".toList
        = some { user := "bob".toList, cleanName := "pic.jpg".toList }
      ∧ "pic.jpg".toList ≠ "x___pic.jpg".toList :=
  parseFilename_second_marker "bob___x___pic.jpg".toList 3 7 (by decide) (by decide) (by decide)
    (by decide) (by decide)

/-- C8. When the marker occurs exactly once in the raw name, at index `i`, `parseFilename`
returns the text before it as user and the whole text after it as clean name, and
user, marker and clean name put together give back the raw name. -/
theorem parseFilename_single_marker (rawName : StdString) (i : Nat)
    (honce : ∀ k, OccursAt marker rawName k ↔ k = i) :
    ∃ info, parseFilename rawName = some info ∧ info.user = rawName.take i
      ∧ info.cleanName = rawName.drop (i + 3)
      ∧ info.user ++ marker ++ info.cleanName = rawName := by
  have hi : OccursAt marker rawName i := (honce i).mpr rfl
  have hfind : find rawName marker 0 = some i :=
    find_of_least (Nat.zero_le _) hi (fun k hk _ hok => by
      have := (honce k).mp hok
      omega)
  have hfind2 : find rawName marker (i + 3) = none :=
    find_of_absent (fun k hk hok => by
      have := (honce k).mp hok
      omega)
  refine ⟨⟨rawName.take i, rawName.drop (i + 3)⟩, ?_, rfl, rfl, ?_⟩
  · rw [parseFilename_of_first hfind, hfind2]
  · exact take_append_marker_append_drop hi

/-- Witness for C8: `bob___pic.jpg`. -/
theorem parseFilename_single_marker_witness :
    ∃ info, parseFilename "bob___pic.jpg".toList = some info
      ∧ info.user = "bob".toList ∧ info.cleanName = "pic.jpg".toList
      ∧ info.user ++ marker ++ info.cleanName = "bob___pic.jpg".toList :=
  parseFilename_single_marker "bob___pic.jpg".toList 3 (by
    intro k
    constructor
    · intro h
      have hk : k + 3 ≤ 13 := h.1
      have hk2 : k ≤ 10 := by omega
      have h2 := h.2
      interval_cases k <;> first | rfl | exact absurd h2 (by decide)
    · rintro rfl
      decide)

/-- C9. `parseFilename` produces a result for every raw name; when the marker does not occur in
the raw name, the result has user `system` and the raw name unchanged as clean name. This
holds in particular for the empty name. -/
theorem parseFilename_no_marker (rawName : StdString) :
    (∃ info, parseFilename rawName = some info)
      ∧ ((∀ k, ¬ OccursAt marker rawName k) →
          parseFilename rawName = some { user := "system".toList, cleanName := rawName })
      ∧ parseFilename [] = some { user := "system".toList, cleanName := [] } := by
  refine ⟨?_, ?_, by decide⟩
  · cases hf : find rawName marker 0 with
    | none => exact ⟨⟨"system".toList, rawName⟩, by simp [parseFilename, hf]⟩
    | some i =>
      rw [parseFilename_of_first hf]
      cases find rawName marker (i + 3) <;> exact ⟨_, rfl⟩
  · intro h
    have hf : find rawName marker 0 = none := find_of_absent (fun k _ => h k)
    simp [parseFilename, hf]

/-- Witness for C9: `holiday_01.jpg` holds no marker. -/
theorem parseFilename_no_marker_witness :
    parseFilename "holiday_01.jpg".toList
      = some { user := "system".toList, cleanName := "holiday_01.jpg".toList } :=
  (parseFilename_no_marker "holiday_01.jpg".toList).2.1 (by
    intro k h
    have hk : k + 3 ≤ 14 := h.1
    have hk2 : k ≤ 11 := by omega
    have h2 := h.2
    interval_cases k <;> exact absurd h2 (by decide))

/-! ## The embedded date -/

theorem QDate.isValid_ofYMD (y m d : Int) : (QDate.ofYMD y m d).isValid = validDate y m d := by
  unfold QDate.ofYMD
  split
  · rename_i h
    simp [QDate.isValid]
  · rename_i h
    have hn : QDate.null.isValid = false := by decide
    rw [hn]
    simpa using h

theorem QTime.isValid_ofHMS (h m s : Int) : (QTime.ofHMS h m s).isValid = validTime h m s := by
  unfold QTime.ofHMS
  split
  · simp [QTime.isValid]
  · rename_i hv
    have hn : QTime.null.isValid = false := by decide
    rw [hn]
    simpa using hv

theorem QDateTime.isValid_null : QDateTime.null.isValid = false := by decide

/-- The regular expression matches at the head of a text exactly when a stamp stands there,
and the captures are then its six fields. -/
theorem matchPieces_re (xs : StdString) :
    matchPieces re xs
      = if 17 ≤ xs.length ∧ IsStamp (xs.take 17) then some (stampFields (xs.take 17))
        else none := by
  rcases xs with _ | ⟨c0, _ | ⟨c1, _ | ⟨c2, _ | ⟨c3, _ | ⟨c4, _ | ⟨c5, _ | ⟨c6, _ | ⟨c7,
    _ | ⟨c8, _ | ⟨c9, _ | ⟨c10, _ | ⟨c11, _ | ⟨c12, _ | ⟨c13, _ | ⟨c14, _ | ⟨c15,
    _ | ⟨c16, xs⟩⟩⟩⟩⟩⟩⟩⟩⟩⟩⟩⟩⟩⟩⟩⟩⟩ <;>
    simp [re, matchPieces, IsStamp, stampFields]
  split_ifs <;> simp_all

theorem matchPieces_re_drop (s : StdString) (i : Nat) :
    matchPieces re (s.drop i)
      = if StampAt s i then some (stampFields (stampAt s i)) else none := by
  rw [matchPieces_re]
  have hiff : (17 ≤ (s.drop i).length ∧ IsStamp ((s.drop i).take 17)) ↔ StampAt s i := by
    unfold StampAt stampAt
    rw [List.length_drop]
    constructor
    · rintro ⟨h1, h2⟩
      exact ⟨by omega, h2⟩
    · rintro ⟨h1, h2⟩
      exact ⟨by omega, h2⟩
  by_cases h : StampAt s i
  · rw [if_pos h, if_pos (hiff.mpr h)]
    rfl
  · rw [if_neg h, if_neg (fun h2 => h (hiff.mp h2))]

/-- The search `reMatch` returns the leftmost match. -/
theorem reMatch_of_leftmost (ps : List Piece) :
    ∀ (s : StdString) (i : Nat) (caps : List StdString),
      matchPieces ps (s.drop i) = some caps → (∀ k < i, matchPieces ps (s.drop k) = none) →
      reMatch ps s = some caps := by
  intro s
  induction s with
  | nil =>
    intro i caps h _
    simpa [reMatch] using h
  | cons c t ih =>
    intro i caps h hmin
    cases i with
    | zero =>
      have h0 : matchPieces ps (c :: t) = some caps := by simpa using h
      simp [reMatch, h0]
    | succ i =>
      have h0 : matchPieces ps (c :: t) = none := by simpa using hmin 0 (Nat.succ_pos i)
      have h1 : matchPieces ps (t.drop i) = some caps := by simpa using h
      have h2 : reMatch ps t = some caps :=
        ih i caps h1 (fun k hk => by simpa using hmin (k + 1) (by omega))
      simp [reMatch, h0, h2]

/-- The search `reMatch` finds nothing when there is no match at any index. -/
theorem reMatch_of_absent (ps : List Piece) :
    ∀ (s : StdString), (∀ k, matchPieces ps (s.drop k) = none) → reMatch ps s = none := by
  intro s
  induction s with
  | nil =>
    intro h
    simpa [reMatch] using h 0
  | cons c t ih =>
    intro h
    have h0 : matchPieces ps (c :: t) = none := by simpa using h 0
    have h2 : reMatch ps t = none := ih (fun k => by simpa using h (k + 1))
    simp [reMatch, h0, h2]

/-- The result of `extractDateFromFilename` in terms of the captures of the match. -/
theorem extractDateFromFilename_of_captures {filename w : StdString}
    (h : reMatch re filename = some (stampFields w)) :
    extractDateFromFilename filename
      = if RealStamp w then stampDateTime w else QDateTime.null := by
  unfold extractDateFromFilename
  simp only [h, captured, stampFields, List.getD_cons_zero, List.getD_cons_succ, Nat.sub_self,
    Nat.reduceSub, QDate.isValid_ofYMD, QTime.isValid_ofHMS, Bool.and_eq_true]
  unfold RealStamp stampDateTime
  split
  · rename_i hv
    simp [QDateTime.ofDateTime, QDate.ofYMD, QTime.ofHMS, QDate.isValid, QTime.isValid, hv.1, hv.2]
  · rfl

/-- When the leftmost stamp of the name stands at `i`, the result is read from it. -/
theorem extractDateFromFilename_of_leftmost {filename : StdString} {i : Nat}
    (h : StampAt filename i) (hmin : ∀ k < i, ¬ StampAt filename k) :
    extractDateFromFilename filename
      = if RealStamp (stampAt filename i) then stampDateTime (stampAt filename i)
        else QDateTime.null := by
  apply extractDateFromFilename_of_captures
  apply reMatch_of_leftmost re filename i
  · rw [matchPieces_re_drop, if_pos h]
  · intro k hk
    rw [matchPieces_re_drop, if_neg (hmin k hk)]

/-- When the name holds no stamp, the result is the invalid timestamp. -/
theorem extractDateFromFilename_of_absent {filename : StdString}
    (h : ∀ i, ¬ StampAt filename i) : extractDateFromFilename filename = QDateTime.null := by
  unfold extractDateFromFilename
  rw [reMatch_of_absent re filename (fun k => by rw [matchPieces_re_drop, if_neg (h k)])]

theorem stampDateTime_isValid {w : StdString} (h : RealStamp w) :
    (stampDateTime w).isValid = true := by
  unfold RealStamp at h
  simp [QDateTime.isValid, QDate.isValid, QTime.isValid, h.1, h.2]

/-- C10, as stated, fails: the name `2023-02-30_120000_2023-08-15_143000` contains the stamp
`2023-08-15_143000` (at index 18), whose fields are a real date and time, and yet
`extractDateFromFilename` returns an invalid timestamp, because only the leftmost stamp
`2023-02-30_120000` is looked at. -/
theorem extractDateFromFilename_some_stamp_counterexample :
    (∃ i, StampAt "2023-02-30_120000_2023-08-15_143000".toList i
        ∧ RealStamp (stampAt "2023-02-30_120000_2023-08-15_143000".toList i))
      ∧ (extractDateFromFilename "2023-02-30_120000_2023-08-15_143000".toList).isValid = false :=
  ⟨⟨18, by decide, by decide⟩, by decide⟩

/-- C10, amended. `extractDateFromFilename` returns a valid timestamp if and only if the name
contains a text of the form `dddd-dd-dd_dddddd` and the six fields of the leftmost such text
denote a real date and a real time of day. When the leftmost such text stands at index `i`, the
result is the timestamp that its six fields spell if they denote a real date and time, and the
invalid timestamp if not; a name without such a text gives the invalid timestamp. A name whose
leftmost stamp is `2023-08-15_143000` yields 2023-08-15 14:30:00, and a name whose only stamp is
`2023-02-30_120000` yields an invalid timestamp. -/
theorem extractDateFromFilename_leftmost_stamp (filename : StdString) :
    ((extractDateFromFilename filename).isValid = true ↔
        ∃ i, StampAt filename i ∧ (∀ k < i, ¬ StampAt filename k)
          ∧ RealStamp (stampAt filename i))
      ∧ (∀ i, StampAt filename i → (∀ k < i, ¬ StampAt filename k) →
          extractDateFromFilename filename
            = if RealStamp (stampAt filename i) then stampDateTime (stampAt filename i)
              else QDateTime.null)
      ∧ ((∀ i, ¬ StampAt filename i) → extractDateFromFilename filename = QDateTime.null)
      ∧ extractDateFromFilename "IMG_2023-08-15_143000.jpg".toList
          = { date := ⟨2023, 8, 15⟩, time := ⟨14, 30, 0⟩ }
      ∧ (extractDateFromFilename "IMG_2023-02-30_120000.jpg".toList).isValid = false := by
  refine ⟨⟨?_, ?_⟩, ?_, ?_, by decide, by decide⟩
  · intro hvalid
    by_cases hex : ∃ i, StampAt filename i
    · have hres := extractDateFromFilename_of_leftmost (Nat.find_spec hex)
        (fun k hk => Nat.find_min hex hk)
      refine ⟨Nat.find hex, Nat.find_spec hex, fun k hk => Nat.find_min hex hk, ?_⟩
      by_cases hreal : RealStamp (stampAt filename (Nat.find hex))
      · exact hreal
      · rw [if_neg hreal] at hres
        rw [hres, QDateTime.isValid_null] at hvalid
        exact absurd hvalid (by decide)
    · have hres := extractDateFromFilename_of_absent (fun i hi => hex ⟨i, hi⟩)
      rw [hres, QDateTime.isValid_null] at hvalid
      exact absurd hvalid (by decide)
  · rintro ⟨i, hstamp, hmin, hreal⟩
    rw [extractDateFromFilename_of_leftmost hstamp hmin, if_pos hreal]
    exact stampDateTime_isValid hreal
  · intro i hstamp hmin
    exact extractDateFromFilename_of_leftmost hstamp hmin
  · intro h
    exact extractDateFromFilename_of_absent h

/-- Witness for C10: in `IMG_2023-08-15_143000.jpg` the leftmost stamp stands at index 4 and
spells a real date and time; in `IMG_2023-02-30_120000.jpg` it does not spell a real date; the
name `holiday.jpg` holds no stamp. -/
theorem extractDateFromFilename_leftmost_stamp_witness :
    extractDateFromFilename "IMG_2023-08-15_143000.jpg".toList
        = stampDateTime "2023-08-15_143000".toList
      ∧ extractDateFromFilename "IMG_2023-02-30_120000.jpg".toList = QDateTime.null
      ∧ extractDateFromFilename "holiday.jpg".toList = QDateTime.null :=
  ⟨(extractDateFromFilename_leftmost_stamp "IMG_2023-08-15_143000.jpg".toList).2.1 4
      (by decide) (by decide),
   (extractDateFromFilename_leftmost_stamp "IMG_2023-02-30_120000.jpg".toList).2.1 4
      (by decide) (by decide),
   (extractDateFromFilename_leftmost_stamp "holiday.jpg".toList).2.2.1 (by
      intro i h
      have hlen : i + 17 ≤ 11 := h.1
      omega)⟩

/-! ## The date cascade -/

theorem exec_inTransaction {σ : Type} (engine : Engine σ) {store : σ} {db : QSqlDatabase σ}
    (h : InTransaction store db) (s : Stmt) : InTransaction store (db.exec engine s).1 := by
  obtain ⟨h1, h2, h3, h4⟩ := h
  unfold QSqlDatabase.exec
  cases hw : db.working with
  | none => simp [hw] at h2
  | some w =>
    refine ⟨h1, rfl, ?_, ?_⟩
    · simpa using h3
    · simpa using h4

theorem getOrCreateKeywordId_inTransaction {σ : Type} (engine : Engine σ) {store : σ}
    {db : QSqlDatabase σ} (h : InTransaction store db) (tag : QString) :
    InTransaction store (getOrCreateKeywordId engine db tag).1 := by
  have h1 := exec_inTransaction engine h (Stmt.selectKeyword tag)
  have h2 := exec_inTransaction engine h1 (Stmt.insertKeyword tag)
  have h3 := exec_inTransaction engine h2 (Stmt.selectKeyword tag)
  unfold getOrCreateKeywordId
  dsimp only
  split
  · exact h1
  · split
    · exact h2
    · split
      · exact h3
      · exact h3

theorem keywordStep_inTransaction {σ : Type} (engine : Engine σ) {store : σ}
    {db : QSqlDatabase σ} (h : InTransaction store db) (picId : Int) (k : QString) :
    InTransaction store (keywordStep engine picId db k) := by
  unfold keywordStep
  split
  · exact h
  · have h1 := getOrCreateKeywordId_inTransaction engine h (trimmed k)
    dsimp only
    split
    · exact exec_inTransaction engine h1 _
    · exact h1

theorem foldl_keywordStep_inTransaction {σ : Type} (engine : Engine σ) {store : σ}
    (picId : Int) (ks : List QString) :
    ∀ {db : QSqlDatabase σ}, InTransaction store db →
      InTransaction store (ks.foldl (keywordStep engine picId) db) := by
  induction ks with
  | nil => intro db h; exact h
  | cons k ks ih =>
    intro db h
    exact ih (keywordStep_inTransaction engine h picId k)

theorem afterInserts_inTransaction {σ : Type} (engine : Engine σ) (store : σ)
    (p : WorkerPayload) (picId : Int) :
    InTransaction store (afterInserts engine store p picId) := by
  refine ⟨rfl, rfl, ?_, ?_⟩ <;> simp [afterInserts]

/-- The run of `insertPhoto` when the picture insert does not deliver a row. -/
theorem insertPhoto_of_picture_failed {σ : Type} (engine : Engine σ) (store : σ)
    (p : WorkerPayload) (h : (pictureAnswer engine store p).2.hasRow = false) :
    insertPhoto engine true store p
      = (false, { durable := store, working := none,
                  trace := [Event.transaction, Event.exec (pictureStmt p), Event.rollback,
                    Event.close] }) := by
  unfold QueryResult.hasRow pictureAnswer at h
  unfold insertPhoto
  simp only [QSqlDatabase.transaction, QSqlDatabase.exec, Bool.not_true, Bool.false_eq_true,
    if_false]
  cases hok : (engine.run (pictureStmt p) store).2.execOk <;>
    cases hrow : (engine.run (pictureStmt p) store).2.row <;>
    simp_all [QSqlDatabase.rollback, QSqlDatabase.close]

/-- The run of `insertPhoto` when the picture insert delivers the id `picId`. -/
theorem insertPhoto_of_picture_inserted {σ : Type} (engine : Engine σ) (store : σ)
    (p : WorkerPayload) (picId : Int) (h : PictureInserted engine store p picId) :
    insertPhoto engine true store p
      = if (locationAnswer engine store p picId).2.execOk = true
            ∧ (exifAnswer engine store p picId).2.execOk = true
            ∧ (iptcAnswer engine store p picId).2.execOk = true then
          (true, (p.meta.keywords.foldl (keywordStep engine picId)
            (afterInserts engine store p picId)).commit.close)
        else
          (false, (p.meta.keywords.foldl (keywordStep engine picId)
            (afterInserts engine store p picId)).rollback.close) := by
  obtain ⟨h1, h2⟩ := h
  unfold pictureAnswer at h1 h2
  unfold insertPhoto afterInserts iptcAnswer exifAnswer locationAnswer pictureAnswer
  simp only [QSqlDatabase.transaction, QSqlDatabase.exec, Bool.not_true, Bool.false_eq_true,
    if_false, h1, h2]
  cases (engine.run (locationStmt picId p) (engine.run (pictureStmt p) store).1).2.execOk <;>
    cases (engine.run (exifStmt picId p)
      (engine.run (locationStmt picId p) (engine.run (pictureStmt p) store).1).1).2.execOk <;>
    cases (engine.run (iptcStmt picId p) (engine.run (exifStmt picId p)
      (engine.run (locationStmt picId p) (engine.run (pictureStmt p) store).1).1).1).2.execOk <;>
    simp

theorem hasRow_iff_pictureInserted {σ : Type} (engine : Engine σ) (store : σ)
    (p : WorkerPayload) :
    (pictureAnswer engine store p).2.hasRow = true ↔ ∃ picId, PictureInserted engine store p picId := by
  unfold PictureInserted QueryResult.hasRow
  cases (pictureAnswer engine store p).2.execOk <;>
    cases (pictureAnswer engine store p).2.row <;> simp

/-- The connection after a run of `insertPhoto` in which the picture insert delivered `picId`:
what is known about it, by the truth value returned. -/
theorem insertPhoto_outcome {σ : Type} (engine : Engine σ) (store : σ) (p : WorkerPayload)
    (picId : Int) (h : PictureInserted engine store p picId) :
    ((insertPhoto engine true store p).1 = true ↔
        ((locationAnswer engine store p picId).2.execOk = true
          ∧ (exifAnswer engine store p picId).2.execOk = true
          ∧ (iptcAnswer engine store p picId).2.execOk = true))
      ∧ ((insertPhoto engine true store p).1 = true →
          Event.commit ∈ (insertPhoto engine true store p).2.trace
            ∧ Event.rollback ∉ (insertPhoto engine true store p).2.trace)
      ∧ ((insertPhoto engine true store p).1 = false →
          (insertPhoto engine true store p).2.durable = store
            ∧ (insertPhoto engine true store p).2.working = none
            ∧ Event.rollback ∈ (insertPhoto engine true store p).2.trace
            ∧ Event.commit ∉ (insertPhoto engine true store p).2.trace) := by
  obtain ⟨hd, hw, hc, hr⟩ := foldl_keywordStep_inTransaction engine picId p.meta.keywords
    (afterInserts_inTransaction engine store p picId)
  rw [insertPhoto_of_picture_inserted engine store p picId h]
  split
  · rename_i hcond
    refine ⟨by simp [hcond], ?_, by simp⟩
    intro _
    simp [QSqlDatabase.commit, QSqlDatabase.close, hr]
  · rename_i hcond
    refine ⟨by simp [hcond], by simp, ?_⟩
    intro _
    simp [QSqlDatabase.rollback, QSqlDatabase.close, hd, hc]

/-- C3. `insertPhoto` is atomic on failure: when the picture insert succeeds and the insert into
`meta_location`, `meta_exif` or `meta_iptc` fails, the transaction is rolled back (and not
committed), `insertPhoto` returns false, and the durable content of the database after the
call is the content before the call, whatever the engine, the payload and that content
are. -/
theorem insertPhoto_atomic_on_failure {σ : Type} (engine : Engine σ) (store : σ)
    (p : WorkerPayload) (picId : Int) (hpic : PictureInserted engine store p picId)
    (hfail : (locationAnswer engine store p picId).2.execOk = false
      ∨ (exifAnswer engine store p picId).2.execOk = false
      ∨ (iptcAnswer engine store p picId).2.execOk = false) :
    (insertPhoto engine true store p).1 = false
      ∧ (insertPhoto engine true store p).2.durable = store
      ∧ (insertPhoto engine true store p).2.working = none
      ∧ Event.rollback ∈ (insertPhoto engine true store p).2.trace
      ∧ Event.commit ∉ (insertPhoto engine true store p).2.trace := by
  obtain ⟨hiff, _, hfalse⟩ := insertPhoto_outcome engine store p picId hpic
  have hret : (insertPhoto engine true store p).1 = false := by
    cases hv : (insertPhoto engine true store p).1 with
    | false => rfl
    | true =>
      obtain ⟨h1, h2, h3⟩ := hiff.mp hv
      rcases hfail with hf | hf | hf
      · rw [h1] at hf; exact absurd hf (by decide)
      · rw [h2] at hf; exact absurd hf (by decide)
      · rw [h3] at hf; exact absurd hf (by decide)
  exact ⟨hret, hfalse hret⟩

/-- Witness for C3: on the example engine the picture insert answers id 1 and the `meta_exif`
insert fails; nothing is stored. -/
theorem insertPhoto_atomic_on_failure_witness :
    (insertPhoto (listEngine exifFails) true [] samplePayload).1 = false
      ∧ (insertPhoto (listEngine exifFails) true [] samplePayload).2.durable = []
      ∧ (insertPhoto (listEngine exifFails) true [] samplePayload).2.working = none
      ∧ Event.rollback ∈ (insertPhoto (listEngine exifFails) true [] samplePayload).2.trace
      ∧ Event.commit ∉ (insertPhoto (listEngine exifFails) true [] samplePayload).2.trace :=
  insertPhoto_atomic_on_failure (listEngine exifFails) [] samplePayload 1
    ⟨by decide, by decide⟩ (Or.inr (Or.inl (by decide)))

theorem runStmts_append {σ : Type} (engine : Engine σ) (xs ys : List Stmt) (store : σ) :
    runStmts engine (xs ++ ys) store = runStmts engine ys (runStmts engine xs store) := by
  unfold runStmts
  rw [List.foldl_append]

theorem exec_executed {σ : Type} (engine : Engine σ) {store : σ} {db : QSqlDatabase σ}
    {stmts : List Stmt} (h : Executed engine store db stmts) (s : Stmt) :
    Executed engine store (db.exec engine s).1 (stmts ++ [s]) := by
  obtain ⟨h1, h2, h3⟩ := h
  unfold QSqlDatabase.exec
  rw [h2]
  refine ⟨h1, ?_, ?_⟩
  · simp [runStmts_append, runStmts]
  · simp [h3]

theorem getOrCreateKeywordId_executed {σ : Type} (engine : Engine σ) {store : σ}
    {db : QSqlDatabase σ} {stmts : List Stmt} (h : Executed engine store db stmts)
    (tag : QString) :
    ∃ kws, Stmt.selectKeyword tag ∈ kws
      ∧ (∀ s ∈ kws, s = Stmt.selectKeyword tag ∨ s = Stmt.insertKeyword tag)
      ∧ Executed engine store (getOrCreateKeywordId engine db tag).1 (stmts ++ kws) := by
  have h1 := exec_executed engine h (Stmt.selectKeyword tag)
  have h2 := exec_executed engine h1 (Stmt.insertKeyword tag)
  have h3 := exec_executed engine h2 (Stmt.selectKeyword tag)
  rw [List.append_assoc] at h2
  rw [List.append_assoc, List.append_assoc] at h3
  have k1 : ∀ s ∈ [Stmt.selectKeyword tag],
      s = Stmt.selectKeyword tag ∨ s = Stmt.insertKeyword tag := by
    intro s hs
    simp only [List.mem_singleton] at hs
    exact Or.inl hs
  have k2 : ∀ s ∈ [Stmt.selectKeyword tag] ++ [Stmt.insertKeyword tag],
      s = Stmt.selectKeyword tag ∨ s = Stmt.insertKeyword tag := by
    intro s hs
    simpa only [List.mem_append, List.mem_singleton] using hs
  have k3 : ∀ s ∈ [Stmt.selectKeyword tag] ++ ([Stmt.insertKeyword tag]
      ++ [Stmt.selectKeyword tag]),
      s = Stmt.selectKeyword tag ∨ s = Stmt.insertKeyword tag := by
    intro s hs
    simp only [List.mem_append, List.mem_singleton] at hs
    rcases hs with hs | hs | hs
    · exact Or.inl hs
    · exact Or.inr hs
    · exact Or.inl hs
  unfold getOrCreateKeywordId
  dsimp only
  split
  · exact ⟨_, by simp, k1, h1⟩
  · split
    · exact ⟨_, by simp, k2, h2⟩
    · split
      · exact ⟨_, by simp, k3, h3⟩
      · exact ⟨_, by simp, k3, h3⟩

theorem keywordStep_executed {σ : Type} (engine : Engine σ) {store : σ}
    {db : QSqlDatabase σ} {stmts : List Stmt} (h : Executed engine store db stmts)
    (picId : Int) (k : QString) :
    ∃ kws, (trimmed k ≠ [] → Stmt.selectKeyword (trimmed k) ∈ kws)
      ∧ (∀ s ∈ kws, KeywordStmtFor picId [k] s)
      ∧ Executed engine store (keywordStep engine picId db k) (stmts ++ kws) := by
  unfold keywordStep
  split
  · rename_i hempty
    refine ⟨[], ?_, by simp, by simpa using h⟩
    intro hne
    exact absurd (List.isEmpty_iff.mp hempty) hne
  · rename_i hempty
    have hne : trimmed k ≠ [] := fun hnil => hempty (List.isEmpty_iff.mpr hnil)
    obtain ⟨kws, hsel, hk, h1⟩ := getOrCreateKeywordId_executed engine h (trimmed k)
    have hk2 : ∀ s ∈ kws, KeywordStmtFor picId [k] s := by
      intro s hs
      rcases hk s hs with hs2 | hs2
      · exact ⟨k, List.mem_singleton.mpr rfl, hne, Or.inl hs2⟩
      · exact ⟨k, List.mem_singleton.mpr rfl, hne, Or.inr (Or.inl hs2)⟩
    dsimp only
    split
    · refine ⟨kws ++ [Stmt.insertLink picId (getOrCreateKeywordId engine db (trimmed k)).2],
        fun _ => List.mem_append_left _ hsel, ?_, ?_⟩
      · intro s hs
        rcases List.mem_append.mp hs with hs | hs
        · exact hk2 s hs
        · simp only [List.mem_singleton] at hs
          exact ⟨k, List.mem_singleton.mpr rfl, hne, Or.inr (Or.inr ⟨_, hs⟩)⟩
      · rw [← List.append_assoc]
        exact exec_executed engine h1 _
    · exact ⟨kws, fun _ => hsel, hk2, h1⟩

theorem KeywordStmtFor.mono {picId : Int} {ks1 ks2 : List QString} {s : Stmt}
    (h : KeywordStmtFor picId ks1 s) (hsub : ∀ k ∈ ks1, k ∈ ks2) : KeywordStmtFor picId ks2 s := by
  obtain ⟨k, hk, hrest⟩ := h
  exact ⟨k, hsub k hk, hrest⟩

theorem KeywordStmtFor.isKeywordStmt {picId : Int} {ks : List QString} {s : Stmt}
    (h : KeywordStmtFor picId ks s) : s.isKeywordStmt = true := by
  obtain ⟨k, _, _, hs | hs | ⟨kid, hs⟩⟩ := h <;> subst hs <;> rfl

theorem foldl_keywordStep_executed {σ : Type} (engine : Engine σ) {store : σ}
    (picId : Int) (ks : List QString) :
    ∀ {db : QSqlDatabase σ} {stmts : List Stmt}, Executed engine store db stmts →
      ∃ kws, (∀ k ∈ ks, trimmed k ≠ [] → Stmt.selectKeyword (trimmed k) ∈ kws)
        ∧ (∀ s ∈ kws, KeywordStmtFor picId ks s)
        ∧ Executed engine store (ks.foldl (keywordStep engine picId) db) (stmts ++ kws) := by
  induction ks with
  | nil =>
    intro db stmts h
    exact ⟨[], by simp, by simp, by simpa using h⟩
  | cons k ks ih =>
    intro db stmts h
    obtain ⟨kws1, hs1, hk1, h1⟩ := keywordStep_executed engine h picId k
    obtain ⟨kws2, hs2, hk2, h2⟩ := ih h1
    refine ⟨kws1 ++ kws2, ?_, ?_, ?_⟩
    · intro k2 hk2m hne
      rcases List.mem_cons.mp hk2m with heq | hmem
      · subst heq
        exact List.mem_append_left _ (hs1 hne)
      · exact List.mem_append_right _ (hs2 k2 hmem hne)
    · intro s hs
      rcases List.mem_append.mp hs with hs | hs
      · exact (hk1 s hs).mono (fun x hx => by
          rw [List.mem_singleton.mp hx]
          exact List.mem_cons_self _ _)
      · exact (hk2 s hs).mono (fun x hx => List.mem_cons_of_mem _ hx)
    · rw [← List.append_assoc]
      exact h2

theorem afterInserts_executed {σ : Type} (engine : Engine σ) (store : σ) (p : WorkerPayload)
    (picId : Int) :
    Executed engine store (afterInserts engine store p picId) (fourInserts picId p) := by
  refine ⟨rfl, ?_, rfl⟩
  simp [afterInserts, fourInserts, runStmts, iptcAnswer, exifAnswer, locationAnswer,
    pictureAnswer]

/-- A run of `insertPhoto` that returns true publishes the store on which the four inserts and
then keyword statements have been run, and has made exactly these calls. -/
theorem insertPhoto_published {σ : Type} (engine : Engine σ) (store : σ) (p : WorkerPayload)
    (h : (insertPhoto engine true store p).1 = true) :
    ∃ picId kws, PictureInserted engine store p picId
      ∧ (∀ s ∈ kws, s.isKeywordStmt = true)
      ∧ (∀ s ∈ kws, KeywordStmtFor picId p.meta.keywords s)
      ∧ (∀ k ∈ p.meta.keywords, trimmed k ≠ [] → Stmt.selectKeyword (trimmed k) ∈ kws)
      ∧ (insertPhoto engine true store p).2.trace
          = Event.transaction :: (fourInserts picId p ++ kws).map Event.exec
            ++ [Event.commit, Event.close]
      ∧ (insertPhoto engine true store p).2.durable
          = runStmts engine (fourInserts picId p ++ kws) store
      ∧ (insertPhoto engine true store p).2.working = none := by
  cases hrow : (pictureAnswer engine store p).2.hasRow with
  | false =>
    rw [insertPhoto_of_picture_failed engine store p hrow] at h
    simp at h
  | true =>
    obtain ⟨picId, hpic⟩ := (hasRow_iff_pictureInserted engine store p).mp hrow
    obtain ⟨kws, hsel, hk, hd, hw, ht⟩ := foldl_keywordStep_executed engine picId
      p.meta.keywords (afterInserts_executed engine store p picId)
    have hcond := (insertPhoto_outcome engine store p picId hpic).1.mp h
    refine ⟨picId, kws, hpic, fun s hs => (hk s hs).isKeywordStmt, hk, hsel, ?_⟩
    rw [insertPhoto_of_picture_inserted engine store p picId hpic, if_pos hcond]
    simp [QSqlDatabase.commit, QSqlDatabase.close, hw, ht]

/-- A run of `insertPhoto` that returns false leaves the durable store as it was. -/
theorem insertPhoto_unchanged {σ : Type} (engine : Engine σ) (store : σ) (p : WorkerPayload)
    (h : (insertPhoto engine true store p).1 = false) :
    (insertPhoto engine true store p).2.durable = store
      ∧ (insertPhoto engine true store p).2.working = none := by
  cases hrow : (pictureAnswer engine store p).2.hasRow with
  | false =>
    rw [insertPhoto_of_picture_failed engine store p hrow]
    exact ⟨rfl, rfl⟩
  | true =>
    obtain ⟨picId, hpic⟩ := (hasRow_iff_pictureInserted engine store p).mp hrow
    obtain ⟨h1, h2, _, _⟩ := (insertPhoto_outcome engine store p picId hpic).2.2 h
    exact ⟨h1, h2⟩

/-- C4. Given that the connection opens, `insertPhoto` returns true exactly when the picture
insert and the three satellite inserts succeed; it commits (and does not roll back) when it
returns true and rolls back (and does not commit) when it returns false. An engine that
differs only in what it does with keyword and link statements gives the same return value.
When the picture insert fails, the calls on the connection are the opening of the
transaction, the picture insert, the rollback and the close: no satellite insert and no keyword
step is attempted. When `insertPhoto` returns true, the calls made are the opening of the
transaction, the four inserts, statements of the keyword step (among them the lookup of every
keyword that is not blank), the commit and the close, and the durable
store after the call is the store before the call on which these statements have been run, no
transaction being left open; when it returns false the durable store is the store before the
call. -/
theorem insertPhoto_commit_iff {σ : Type} (engine : Engine σ) (store : σ) (p : WorkerPayload) :
    ((insertPhoto engine true store p).1 = true ↔
        ∃ picId, PictureInserted engine store p picId
          ∧ (locationAnswer engine store p picId).2.execOk = true
          ∧ (exifAnswer engine store p picId).2.execOk = true
          ∧ (iptcAnswer engine store p picId).2.execOk = true)
      ∧ ((insertPhoto engine true store p).1 = true →
          Event.commit ∈ (insertPhoto engine true store p).2.trace
            ∧ Event.rollback ∉ (insertPhoto engine true store p).2.trace)
      ∧ ((insertPhoto engine true store p).1 = false →
          Event.rollback ∈ (insertPhoto engine true store p).2.trace
            ∧ Event.commit ∉ (insertPhoto engine true store p).2.trace)
      ∧ (∀ engine2 : Engine σ,
          (∀ s st, s.isKeywordStmt = false → engine2.run s st = engine.run s st) →
          (insertPhoto engine2 true store p).1 = (insertPhoto engine true store p).1)
      ∧ ((pictureAnswer engine store p).2.hasRow = false →
          (insertPhoto engine true store p).2.trace
            = [Event.transaction, Event.exec (pictureStmt p), Event.rollback, Event.close])
      ∧ ((insertPhoto engine true store p).1 = true →
          ∃ picId kws, PictureInserted engine store p picId
            ∧ (∀ s ∈ kws, s.isKeywordStmt = true)
            ∧ (∀ s ∈ kws, KeywordStmtFor picId p.meta.keywords s)
            ∧ (∀ k ∈ p.meta.keywords, trimmed k ≠ [] →
                Stmt.selectKeyword (trimmed k) ∈ kws)
            ∧ (insertPhoto engine true store p).2.trace
                = Event.transaction :: (fourInserts picId p ++ kws).map Event.exec
                  ++ [Event.commit, Event.close]
            ∧ (insertPhoto engine true store p).2.durable
                = runStmts engine (fourInserts picId p ++ kws) store
            ∧ (insertPhoto engine true store p).2.working = none)
      ∧ ((insertPhoto engine true store p).1 = false →
          (insertPhoto engine true store p).2.durable = store
            ∧ (insertPhoto engine true store p).2.working = none) := by
  have key : ∀ eng : Engine σ,
      ((insertPhoto eng true store p).1 = true ↔
        ∃ picId, PictureInserted eng store p picId
          ∧ (locationAnswer eng store p picId).2.execOk = true
          ∧ (exifAnswer eng store p picId).2.execOk = true
          ∧ (iptcAnswer eng store p picId).2.execOk = true) := by
    intro eng
    cases hrow : (pictureAnswer eng store p).2.hasRow with
    | false =>
      rw [insertPhoto_of_picture_failed eng store p hrow]
      constructor
      · intro h; simp at h
      · rintro ⟨picId, hpic, _⟩
        have := (hasRow_iff_pictureInserted eng store p).mpr ⟨picId, hpic⟩
        rw [hrow] at this
        exact absurd this (by decide)
    | true =>
      obtain ⟨picId, hpic⟩ := (hasRow_iff_pictureInserted eng store p).mp hrow
      constructor
      · intro h
        exact ⟨picId, hpic, (insertPhoto_outcome eng store p picId hpic).1.mp h⟩
      · rintro ⟨picId2, hpic2, hsat⟩
        have heq : picId2 = picId := by
          have h1 := hpic.2
          rw [hpic2.2] at h1
          exact Option.some.inj h1
        subst heq
        exact (insertPhoto_outcome eng store p picId2 hpic).1.mpr hsat
  refine ⟨key engine, ?_, ?_, ?_, ?_, insertPhoto_published engine store p,
    insertPhoto_unchanged engine store p⟩
  · intro h
    obtain ⟨picId, hpic, _⟩ := (key engine).mp h
    exact (insertPhoto_outcome engine store p picId hpic).2.1 h
  · intro h
    cases hrow : (pictureAnswer engine store p).2.hasRow with
    | false =>
      rw [insertPhoto_of_picture_failed engine store p hrow]
      simp
    | true =>
      obtain ⟨picId, hpic⟩ := (hasRow_iff_pictureInserted engine store p).mp hrow
      obtain ⟨_, _, h3, h4⟩ := (insertPhoto_outcome engine store p picId hpic).2.2 h
      exact ⟨h3, h4⟩
  · intro engine2 hagree
    have hp : pictureAnswer engine2 store p = pictureAnswer engine store p :=
      hagree _ _ rfl
    have hl : ∀ picId, locationAnswer engine2 store p picId = locationAnswer engine store p picId := by
      intro picId
      unfold locationAnswer
      rw [hp]
      exact hagree _ _ rfl
    have he : ∀ picId, exifAnswer engine2 store p picId = exifAnswer engine store p picId := by
      intro picId
      unfold exifAnswer
      rw [hl]
      exact hagree _ _ rfl
    have hi : ∀ picId, iptcAnswer engine2 store p picId = iptcAnswer engine store p picId := by
      intro picId
      unfold iptcAnswer
      rw [he]
      exact hagree _ _ rfl
    have hiff : (insertPhoto engine2 true store p).1 = true
        ↔ (insertPhoto engine true store p).1 = true := by
      rw [key engine2, key engine]
      simp only [PictureInserted, hp, hl, he, hi]
    cases h1 : (insertPhoto engine2 true store p).1 <;>
      cases h2 : (insertPhoto engine true store p).1 <;> simp_all
  · intro hrow
    rw [insertPhoto_of_picture_failed engine store p hrow]

/-- Witness for C4: on the example engine, a run without failures returns true and commits; a
run in which every keyword and link statement fails does the same; a run in which the picture
insert fails makes four calls on the connection; after the run without failures the store
holds the picture, the three satellite rows, the keyword and the link, and after the run in
which the `meta_exif` insert fails it holds nothing. -/
theorem insertPhoto_commit_iff_witness :
    (Event.commit ∈ (insertPhoto (listEngine fun _ => false) true [] samplePayload).2.trace
        ∧ Event.rollback ∉ (insertPhoto (listEngine fun _ => false) true [] samplePayload).2.trace)
      ∧ (insertPhoto (listEngine Stmt.isKeywordStmt) true [] samplePayload).1
          = (insertPhoto (listEngine fun _ => false) true [] samplePayload).1
      ∧ (insertPhoto (listEngine pictureFails) true [] samplePayload).2.trace
          = [Event.transaction, Event.exec (pictureStmt samplePayload), Event.rollback,
              Event.close]
      ∧ (∃ picId kws, PictureInserted (listEngine fun _ => false) [] samplePayload picId
          ∧ (∀ s ∈ kws, s.isKeywordStmt = true)
          ∧ (∀ s ∈ kws, KeywordStmtFor picId samplePayload.meta.keywords s)
          ∧ (∀ k ∈ samplePayload.meta.keywords, trimmed k ≠ [] →
              Stmt.selectKeyword (trimmed k) ∈ kws)
          ∧ (insertPhoto (listEngine fun _ => false) true [] samplePayload).2.trace
              = Event.transaction :: (fourInserts picId samplePayload ++ kws).map Event.exec
                ++ [Event.commit, Event.close]
          ∧ (insertPhoto (listEngine fun _ => false) true [] samplePayload).2.durable
              = runStmts (listEngine fun _ => false) (fourInserts picId samplePayload ++ kws) []
          ∧ (insertPhoto (listEngine fun _ => false) true [] samplePayload).2.working = none)
      ∧ (insertPhoto (listEngine fun _ => false) true [] samplePayload).2.durable
          = fourInserts 1 samplePayload
            ++ [Stmt.insertKeyword "sea".toList, Stmt.insertLink 1 7]
      ∧ ((insertPhoto (listEngine exifFails) true [] samplePayload).2.durable = []
          ∧ (insertPhoto (listEngine exifFails) true [] samplePayload).2.working = none) :=
  ⟨(insertPhoto_commit_iff (listEngine fun _ => false) [] samplePayload).2.1 (by decide),
   (insertPhoto_commit_iff (listEngine fun _ => false) [] samplePayload).2.2.2.1
      (listEngine Stmt.isKeywordStmt)
      (by
        intro s st hs
        simp [listEngine, hs]),
   (insertPhoto_commit_iff (listEngine pictureFails) [] samplePayload).2.2.2.2.1 (by decide),
   (insertPhoto_commit_iff (listEngine fun _ => false) [] samplePayload).2.2.2.2.2.1
      (by decide),
   by decide,
   (insertPhoto_commit_iff (listEngine exifFails) [] samplePayload).2.2.2.2.2.2 (by decide)⟩

/-! ## The metadata cascade -/

theorem extractExif_text_fields (fromString : QString → QDateTime) (exifData : List Exifdatum)
    (data : PhotoData) :
    (extractExif fromString exifData data).city = data.city
      ∧ (extractExif fromString exifData data).province = data.province
      ∧ (extractExif fromString exifData data).country = data.country
      ∧ (extractExif fromString exifData data).countryCode = data.countryCode
      ∧ (extractExif fromString exifData data).title = data.title
      ∧ (extractExif fromString exifData data).copyright = data.copyright
      ∧ (extractExif fromString exifData data).keywords = data.keywords := by
  unfold extractExif
  split <;> exact ⟨rfl, rfl, rfl, rfl, rfl, rfl, rfl⟩

theorem iptcKeywordLoop_eq_foldl :
    ∀ (pos : List Datum) (keywords : List QString),
      iptcKeywordLoop pos keywords
        = ((pos.takeWhile fun d => d.key = "Iptc.Application2.Keywords".toList).map
            Datum.toString).foldl (fun acc v => if v ∈ acc then acc else acc ++ [v]) keywords := by
  intro pos
  induction pos with
  | nil => intro keywords; rfl
  | cons d ds ih =>
    intro keywords
    by_cases h : d.key = "Iptc.Application2.Keywords".toList
    · simp only [iptcKeywordLoop, if_pos h, List.takeWhile, decide_eq_true h, List.map_cons,
        List.foldl_cons, ih]
      by_cases hm : d.toString ∈ keywords <;> simp [hm]
    · simp only [iptcKeywordLoop, if_neg h, List.takeWhile, decide_eq_false h, List.map_nil,
        List.foldl_nil]

theorem xmpSubjectLoop_eq_foldl :
    ∀ (pos : List Datum) (keywords : List QString),
      xmpSubjectLoop pos keywords
        = (valuesOf pos "Xmp.dc.subject".toList).foldl
            (fun acc v => if v ∈ acc then acc else acc ++ [v]) keywords := by
  intro pos
  induction pos with
  | nil => intro keywords; rfl
  | cons d ds ih =>
    intro keywords
    unfold valuesOf at ih ⊢
    by_cases h : d.key = "Xmp.dc.subject".toList
    · simp only [xmpSubjectLoop, if_pos h, List.filter, decide_eq_true h, List.map_cons,
        List.foldl_cons, ih]
      by_cases hm : d.toString ∈ keywords <;> simp [hm]
    · simp only [xmpSubjectLoop, if_neg h, List.filter, decide_eq_false h, ih]

theorem extractXmp_extractIptc_keywords (iptcData xmpData : List Datum) (data : PhotoData)
    (h : data.keywords = []) :
    (extractXmp xmpData (extractIptc iptcData data)).keywords
      = (valuesOf xmpData "Xmp.dc.subject".toList).foldl
          (fun acc v => if v ∈ acc then acc else acc ++ [v])
          ((((findKey iptcData "Iptc.Application2.Keywords".toList).takeWhile
              fun d => d.key = "Iptc.Application2.Keywords".toList).map Datum.toString).foldl
            (fun acc v => if v ∈ acc then acc else acc ++ [v]) []) := by
  cases iptcData with
  | nil =>
    cases xmpData with
    | nil => simp [extractXmp, extractIptc, findKey, valuesOf, h]
    | cons x xs =>
      simp only [extractXmp, extractIptc, List.isEmpty_nil, List.isEmpty_cons, if_true,
        Bool.false_eq_true, if_false, xmpSubjectLoop_eq_foldl, h, findKey,
        List.takeWhile_nil, List.map_nil, List.foldl_nil]
  | cons d ds =>
    cases xmpData with
    | nil =>
      simp only [extractXmp, extractIptc, List.isEmpty_nil, List.isEmpty_cons, if_true,
        Bool.false_eq_true, if_false, iptcKeywordLoop_eq_foldl, h, valuesOf,
        List.filter_nil, List.map_nil, List.foldl_nil]
    | cons x xs =>
      simp only [extractXmp, extractIptc, List.isEmpty_cons, Bool.false_eq_true, if_false,
        iptcKeywordLoop_eq_foldl, xmpSubjectLoop_eq_foldl, h]

/-- What `extract` collects as keywords, for every image: the values of the IPTC keyword entries
that follow the first one without interruption, then the values of all the XMP subject
entries, without repetitions. -/
theorem extract_keywords_eq (fromString : QString → QDateTime) (image : Image) :
    (extract fromString (some image)).keywords
      = firstOccurrences
          ((((findKey image.iptcData "Iptc.Application2.Keywords".toList).takeWhile
              fun d => d.key = "Iptc.Application2.Keywords".toList).map Datum.toString)
            ++ valuesOf image.xmpData "Xmp.dc.subject".toList) := by
  have hexif := (extractExif_text_fields fromString image.exifData
    { width := image.pixelWidth, height := image.pixelHeight }).2.2.2.2.2.2
  unfold firstOccurrences
  rw [List.foldl_append]
  exact extractXmp_extractIptc_keywords image.iptcData image.xmpData _ hexif

theorem filter_findKey (data : List Datum) (k : StdString) :
    (findKey data k).filter (fun d => d.key = k) = data.filter (fun d => d.key = k) := by
  induction data with
  | nil => rfl
  | cons d ds ih =>
    by_cases h : d.key = k
    · simp [findKey, h]
    · simp only [findKey, if_neg h, List.filter, decide_eq_false h]
      exact ih

theorem filter_eq_takeWhile_of_dropWhile {α : Type} (q : α → Bool) :
    ∀ l : List α, (∀ d ∈ l.dropWhile q, q d = false) → l.filter q = l.takeWhile q := by
  intro l
  induction l with
  | nil => intro _; rfl
  | cons d ds ih =>
    intro h
    cases hq : q d with
    | true =>
      simp only [List.filter, List.takeWhile, hq]
      rw [ih (by simpa [List.dropWhile, hq] using h)]
    | false =>
      simp only [List.takeWhile, hq]
      rw [List.filter_eq_nil_iff]
      intro a ha
      have := h a (by simpa [List.dropWhile, hq] using ha)
      simp [this]

/-- When no IPTC keyword entry comes after an entry of another key that follows the first
keyword entry, `extract` returns the keywords that the design document describes. -/
theorem extract_keywords_of_adjacent (fromString : QString → QDateTime) (image : Image)
    (hadj : ∀ d ∈ (findKey image.iptcData "Iptc.Application2.Keywords".toList).dropWhile
        (fun d => d.key = "Iptc.Application2.Keywords".toList),
      d.key ≠ "Iptc.Application2.Keywords".toList) :
    (extract fromString (some image)).keywords
      = specKeywords image.iptcData image.xmpData := by
  have hrun : valuesOf image.iptcData "Iptc.Application2.Keywords".toList
      = ((findKey image.iptcData "Iptc.Application2.Keywords".toList).takeWhile
          fun d => d.key = "Iptc.Application2.Keywords".toList).map Datum.toString := by
    unfold valuesOf
    rw [← filter_findKey image.iptcData,
      filter_eq_takeWhile_of_dropWhile _ _ (fun d hd => by simpa using hadj d hd)]
  rw [extract_keywords_eq, specKeywords, hrun]

/-- C6, failing input. The IPTC entries are a keyword `sea`, a city, and a keyword `sun`; there
are no XMP entries. The keywords that `extract` returns are `sea` alone, whereas the values of
all the IPTC keyword entries without repetitions are `sea` and `sun`: the loop stops at the
first entry that is not a keyword entry. -/
theorem extract_keywords_scattered (fromString : QString → QDateTime) :
    (extract fromString (some scatteredKeywordsImage)).keywords = ["sea".toList]
      ∧ specKeywords scatteredKeywordsImage.iptcData scatteredKeywordsImage.xmpData
        = ["sea".toList, "sun".toList] :=
  ⟨rfl, by decide⟩

/-- C7, failing input. The only keyword entry is the XMP subject `Beijing, China, CHN`. The
keywords that `extract` returns are that one comma-joined text, not its three parts; the
lambda `addKeywords`, which would give the three trimmed parts, is never called. -/
theorem extract_keywords_comma_joined (fromString : QString → QDateTime) :
    (extract fromString (some commaJoinedImage)).keywords = ["Beijing, China, CHN".toList]
      ∧ addKeywords [] "Beijing, China, CHN".toList
        = ["Beijing".toList, "China".toList, "CHN".toList] :=
  ⟨rfl, by decide⟩

/-! ## GPS coordinates -/

theorem findExifKey_eq_some_iff (exifData : List Exifdatum) (k : StdString) (d : Exifdatum) :
    findExifKey exifData k = some d ↔ FirstWithKey exifData k d := by
  unfold findExifKey FirstWithKey
  induction exifData with
  | nil => simp
  | cons e es ih =>
    by_cases h : e.key = k
    · simp only [List.find?, decide_eq_true h]
      constructor
      · intro he
        have hed : e = d := Option.some.inj he
        subst hed
        exact ⟨[], es, rfl, by simp, h⟩
      · rintro ⟨pre, post, heq, hpre, hd⟩
        cases pre with
        | nil =>
          simp only [List.nil_append, List.cons.injEq] at heq
          rw [heq.1]
        | cons a as =>
          simp only [List.cons_append, List.cons.injEq] at heq
          exact absurd h (heq.1 ▸ hpre a (List.mem_cons_self a as))
    · simp only [List.find?, decide_eq_false h]
      rw [ih]
      constructor
      · rintro ⟨pre, post, heq, hpre, hd⟩
        refine ⟨e :: pre, post, by rw [heq]; rfl, ?_, hd⟩
        intro a ha
        rcases List.mem_cons.mp ha with rfl | ha
        · exact h
        · exact hpre a ha
      · rintro ⟨pre, post, heq, hpre, hd⟩
        cases pre with
        | nil =>
          simp only [List.nil_append, List.cons.injEq] at heq
          exact absurd (heq.1 ▸ hd) h
        | cons a as =>
          simp only [List.cons_append, List.cons.injEq] at heq
          exact ⟨as, post, heq.2, fun x hx => hpre x (List.mem_cons_of_mem a hx), hd⟩

theorem findExifKey_eq_none_iff (exifData : List Exifdatum) (k : StdString) :
    findExifKey exifData k = none ↔ ∀ e ∈ exifData, e.key ≠ k := by
  unfold findExifKey
  simp

/-- The value of `getGpsCoordinate` on a datum with at least three components. -/
theorem getGpsCoordinate_of_three {exifData : List Exifdatum} {key refKey : StdString}
    {datum : Exifdatum} {deg min sec : Int × Int} {rest : List (Int × Int)}
    (hkey : findExifKey exifData key = some datum)
    (hrat : datum.rationals = deg :: min :: sec :: rest) :
    getGpsCoordinate exifData key refKey
      = match findExifKey exifData refKey with
        | some refPos =>
            if refPos.toString = "S".toList ∨ refPos.toString = "W".toList then
              -decimalDegrees deg min sec
            else decimalDegrees deg min sec
        | none => decimalDegrees deg min sec := by
  have hcount : ¬ datum.count < 3 := by
    simp [Exifdatum.count, hrat]
  unfold getGpsCoordinate
  simp only [hkey, hcount, if_false, Exifdatum.quotient, hrat, List.getD_cons_zero,
    List.getD_cons_succ, decimalDegrees, mul_neg, mul_one]

/-- C12. `getGpsCoordinate` returns 0 when no entry has the key, and 0 when the first entry
with the key has fewer than three components. When that entry has at least three rational
components degrees, minutes, seconds with denominators other than 0, the result is
degrees + minutes/60 + seconds/3600, negated when the reference field is present and reads
`S` or `W`, and not negated otherwise. Over exact rationals, latitude 40/1, 26/1, 46/1 with
reference `S` gives -(40 + 26/60 + 46/3600), which is within 0.0001 of -40.4461. -/
theorem getGpsCoordinate_decimal (exifData : List Exifdatum) (key refKey : StdString) :
    ((∀ e ∈ exifData, e.key ≠ key) → getGpsCoordinate exifData key refKey = 0)
      ∧ (∀ datum, FirstWithKey exifData key datum → datum.count < 3 →
          getGpsCoordinate exifData key refKey = 0)
      ∧ (∀ datum deg min sec rest, FirstWithKey exifData key datum →
          datum.rationals = deg :: min :: sec :: rest → deg.2 ≠ 0 → min.2 ≠ 0 → sec.2 ≠ 0 →
          (ReadsSouthOrWest exifData refKey →
              getGpsCoordinate exifData key refKey = -decimalDegrees deg min sec)
            ∧ (¬ ReadsSouthOrWest exifData refKey →
              getGpsCoordinate exifData key refKey = decimalDegrees deg min sec))
      ∧ getGpsCoordinate southLatitudeExif "Exif.GPSInfo.GPSLatitude".toList
            "Exif.GPSInfo.GPSLatitudeRef".toList
          = -(40 + 26 / 60 + 46 / 3600)
      ∧ |getGpsCoordinate southLatitudeExif "Exif.GPSInfo.GPSLatitude".toList
            "Exif.GPSInfo.GPSLatitudeRef".toList + 40.4461| < 1 / 10000 := by
  have hex : getGpsCoordinate southLatitudeExif "Exif.GPSInfo.GPSLatitude".toList
      "Exif.GPSInfo.GPSLatitudeRef".toList = -(40 + 26 / 60 + 46 / 3600) := by
    have hkey : findExifKey southLatitudeExif "Exif.GPSInfo.GPSLatitude".toList
        = some { key := "Exif.GPSInfo.GPSLatitude".toList, toString := "40/1 26/1 46/1".toList,
                 rationals := [(40, 1), (26, 1), (46, 1)] } := by decide
    have href : findExifKey southLatitudeExif "Exif.GPSInfo.GPSLatitudeRef".toList
        = some { key := "Exif.GPSInfo.GPSLatitudeRef".toList, toString := "S".toList } := by
      decide
    rw [getGpsCoordinate_of_three hkey rfl, href]
    have hs : ("S".toList = "S".toList ∨ "S".toList = "W".toList) := Or.inl rfl
    simp only [hs, if_true, decimalDegrees]
    norm_num
  refine ⟨?_, ?_, ?_, hex, ?_⟩
  · intro h
    have hnone := (findExifKey_eq_none_iff exifData key).mpr h
    simp [getGpsCoordinate, hnone]
  · intro datum hfirst hcount
    have hsome := (findExifKey_eq_some_iff exifData key datum).mpr hfirst
    simp [getGpsCoordinate, hsome, hcount]
  · intro datum deg min sec rest hfirst hrat _ _ _
    have hsome := (findExifKey_eq_some_iff exifData key datum).mpr hfirst
    rw [getGpsCoordinate_of_three hsome hrat]
    constructor
    · rintro ⟨r, hr, hsw⟩
      rw [(findExifKey_eq_some_iff exifData refKey r).mpr hr]
      simp only [hsw, if_true]
    · intro hnot
      cases href : findExifKey exifData refKey with
      | none => rfl
      | some r =>
        have hsw : ¬ (r.toString = "S".toList ∨ r.toString = "W".toList) :=
          fun h => hnot ⟨r, (findExifKey_eq_some_iff exifData refKey r).mp href, h⟩
        simp only [hsw, if_false]
  · rw [hex]
    rw [abs_lt]
    constructor <;> norm_num

/-- Witness for C12: latitude 40° 26' 46'' with reference `S`. -/
theorem getGpsCoordinate_decimal_witness :
    getGpsCoordinate southLatitudeExif "Exif.GPSInfo.GPSLatitude".toList
        "Exif.GPSInfo.GPSLatitudeRef".toList
      = -decimalDegrees (40, 1) (26, 1) (46, 1) :=
  ((getGpsCoordinate_decimal southLatitudeExif "Exif.GPSInfo.GPSLatitude".toList
      "Exif.GPSInfo.GPSLatitudeRef".toList).2.2.1
    { key := "Exif.GPSInfo.GPSLatitude".toList, toString := "40/1 26/1 46/1".toList,
      rationals := [(40, 1), (26, 1), (46, 1)] }
    (40, 1) (26, 1) (46, 1) []
    ⟨[{ key := "Exif.GPSInfo.GPSLatitudeRef".toList, toString := "S".toList }], [], rfl,
      by decide, rfl⟩
    rfl (by decide) (by decide) (by decide)).1
    ⟨{ key := "Exif.GPSInfo.GPSLatitudeRef".toList, toString := "S".toList },
      ⟨[], [{ key := "Exif.GPSInfo.GPSLatitude".toList, toString := "40/1 26/1 46/1".toList,
              rationals := [(40, 1), (26, 1), (46, 1)] }], rfl, by simp, rfl⟩,
      Or.inl rfl⟩

/-! ## Path planning -/

theorem dropWhile_append_stop {α : Type} (q : α → Bool) (xs : List α) (y : α) (ys : List α)
    (hxs : ∀ x ∈ xs, q x = true) (hy : q y = false) :
    (xs ++ y :: ys).dropWhile q = y :: ys := by
  induction xs with
  | nil => simp [List.dropWhile, hy]
  | cons x xs ih =>
    have hx : q x = true := hxs x (List.mem_cons_self x xs)
    simp only [List.cons_append, List.dropWhile, hx]
    exact ih (fun a ha => hxs a (List.mem_cons_of_mem x ha))

theorem takeWhile_append_stop {α : Type} (q : α → Bool) (xs : List α) (y : α) (ys : List α)
    (hxs : ∀ x ∈ xs, q x = true) (hy : q y = false) :
    (xs ++ y :: ys).takeWhile q = xs := by
  induction xs with
  | nil => simp [List.takeWhile, hy]
  | cons x xs ih =>
    have hx : q x = true := hxs x (List.mem_cons_self x xs)
    have h := ih (fun a ha => hxs a (List.mem_cons_of_mem x ha))
    rw [List.cons_append, List.takeWhile_cons, hx]
    simp only [if_true, h]

theorem dropWhile_all {α : Type} (q : α → Bool) (xs : List α) (hxs : ∀ x ∈ xs, q x = true) :
    xs.dropWhile q = [] := by
  induction xs with
  | nil => rfl
  | cons x xs ih =>
    have hx : q x = true := hxs x (List.mem_cons_self x xs)
    simp only [List.dropWhile, hx]
    exact ih (fun a ha => hxs a (List.mem_cons_of_mem x ha))

/-- A filename holds no separator. -/
theorem FsPath.filename_no_separator (p : FsPath) : '/' ∉ FsPath.filename p := by
  unfold FsPath.filename
  intro h
  rw [List.mem_reverse] at h
  have := List.mem_takeWhile_imp h
  simp at this

theorem joinPath_append_singleton (d : List StdString) (hd : d ≠ []) (c : StdString) :
    joinPath (d ++ [c]) = joinPath d ++ '/' :: c := by
  induction d with
  | nil => exact absurd rfl hd
  | cons a as ih =>
    cases as with
    | nil => rfl
    | cons b bs =>
      have := ih (by simp)
      simp only [List.cons_append] at this ⊢
      simp only [joinPath, this, List.append_assoc, List.cons_append]

theorem joinPath_cons (c : StdString) (d : List StdString) (hd : d ≠ []) :
    joinPath (c :: d) = c ++ '/' :: joinPath d := by
  cases d with
  | nil => exact absurd rfl hd
  | cons e rest => rfl

/-- A pathname made of elements that are not empty and hold no separator starts and ends with a
character that is not a separator. -/
theorem joinPath_ends (d : List StdString) (hne : d ≠ [])
    (hd : ∀ c ∈ d, c ≠ [] ∧ '/' ∉ c) :
    (∃ first tail, joinPath d = first :: tail ∧ first ≠ '/')
      ∧ (∃ init last, joinPath d = init ++ [last] ∧ last ≠ '/') := by
  induction d with
  | nil => exact absurd rfl hne
  | cons c rest ih =>
    obtain ⟨hc, hslash⟩ := hd c (List.mem_cons_self c rest)
    obtain ⟨first, ctail, hcf⟩ := List.exists_cons_of_ne_nil hc
    have hfirst : first ≠ '/' := by
      intro h
      exact hslash (by rw [hcf, h]; exact List.mem_cons_self _ _)
    cases rest with
    | nil =>
      refine ⟨⟨first, ctail, by simpa [joinPath] using hcf, hfirst⟩, ?_⟩
      refine ⟨c.dropLast, c.getLast hc, by simp [joinPath, List.dropLast_append_getLast], ?_⟩
      intro h
      exact hslash (h ▸ List.getLast_mem hc)
    | cons e es =>
      obtain ⟨_, init, last, hj, hlast⟩ := ih (by simp)
        (fun x hx => hd x (List.mem_cons_of_mem c hx))
      refine ⟨⟨first, ctail ++ '/' :: joinPath (e :: es), by simp [joinPath, hcf], hfirst⟩, ?_⟩
      exact ⟨c ++ '/' :: init, last, by simp [joinPath, hj], hlast⟩

theorem FsPath.is_absolute_of_no_separator {p : FsPath} (h : '/' ∉ p) :
    FsPath.is_absolute p = false := by
  unfold FsPath.is_absolute
  cases p with
  | nil => simp
  | cons c t =>
    have hc : c ≠ '/' := fun hc => h (hc ▸ List.mem_cons_self c t)
    simp [hc]

theorem FsPath.has_filename_of_last (init : FsPath) (last : Char) (h : last ≠ '/') :
    FsPath.has_filename (init ++ [last]) = true := by
  simp [FsPath.has_filename, FsPath.filename, List.takeWhile, h]

theorem FsPath.has_filename_of_separator (init : FsPath) :
    FsPath.has_filename (init ++ ['/']) = false := by
  simp [FsPath.has_filename, FsPath.filename, List.takeWhile]

/-- The parent path of a pathname of at least one element whose last element holds no
separator is the pathname of the elements before it. -/
theorem FsPath.parent_path_joinPath (d : List StdString) (raw : StdString)
    (hd : ∀ c ∈ d, c ≠ [] ∧ '/' ∉ c) (hraw : '/' ∉ raw) :
    FsPath.parent_path (joinPath (d ++ [raw])) = joinPath d := by
  have hall : ∀ x ∈ raw.reverse, (fun c : Char => decide (c ≠ '/')) x = true := by
    intro x hx
    have hxr : x ∈ raw := List.mem_reverse.mp hx
    have : x ≠ '/' := fun h => hraw (h ▸ hxr)
    simpa using this
  by_cases hne : d = []
  · subst hne
    have hdrop : (raw.reverse.dropWhile fun c => decide (c ≠ '/')) = [] :=
      dropWhile_all _ _ hall
    unfold FsPath.parent_path
    simp only [joinPath, List.nil_append, hdrop]
    rfl
  · obtain ⟨_, init, last, hj, hlast⟩ := joinPath_ends d hne hd
    rw [joinPath_append_singleton d hne, hj]
    unfold FsPath.parent_path
    have hrev : (init ++ [last] ++ '/' :: raw).reverse
        = raw.reverse ++ '/' :: (last :: init.reverse) := by simp
    have hdir : ((init ++ [last] ++ '/' :: raw).reverse.dropWhile fun c => decide (c ≠ '/'))
        = '/' :: (last :: init.reverse) := by
      rw [hrev]
      exact dropWhile_append_stop _ _ _ _ hall (by simp)
    simp only [hdir, List.reverse_reverse]
    have hstrip : (('/' :: (last :: init.reverse)).dropWhile fun c => decide (c = '/'))
        = last :: init.reverse := by
      simp [List.dropWhile, hlast]
    simp [hstrip]

/-- The function `parseFilename` produces a result for every raw name. -/
theorem parseFilename_total (rawName : StdString) :
    ∃ info, parseFilename rawName = some info := by
  cases hf : find rawName marker 0 with
  | none => exact ⟨⟨"system".toList, rawName⟩, by simp [parseFilename, hf]⟩
  | some i =>
    rw [parseFilename_of_first hf]
    cases find rawName marker (i + 3) <;> exact ⟨_, rfl⟩

/-- The clean name that `parseFilename` returns is the raw name from some index on. -/
theorem parseFilename_cleanName_drop {rawName : StdString} {info : FileInfo}
    (h : parseFilename rawName = some info) : ∃ n, info.cleanName = rawName.drop n := by
  cases hf : find rawName marker 0 with
  | none =>
    simp only [parseFilename, hf] at h
    exact ⟨0, by rw [← Option.some.inj h]; rfl⟩
  | some i =>
    rw [parseFilename_of_first hf] at h
    cases hf2 : find rawName marker (i + 3) with
    | none =>
      simp only [hf2] at h
      exact ⟨i + 3, by rw [← Option.some.inj h]⟩
    | some j =>
      simp only [hf2] at h
      exact ⟨j + 3, by rw [← Option.some.inj h]⟩

/-- The destination path that the loop body computes, as a pathname of elements. -/
theorem destPath_eq_joinPath (d : List StdString) (cleanName : StdString)
    (hd : ∀ c ∈ d, c ≠ [] ∧ '/' ∉ c) (hclean : '/' ∉ cleanName) :
    FsPath.append (FsPath.append PHOTOS_ROOT (joinPath d)) cleanName
      = joinPath (PHOTOS_ROOT :: (d ++ [cleanName])) := by
  have habs := FsPath.is_absolute_of_no_separator hclean
  have hroot : FsPath.has_filename PHOTOS_ROOT = true := by decide
  by_cases hne : d = []
  · subst hne
    have h1 : FsPath.append PHOTOS_ROOT (joinPath []) = PHOTOS_ROOT ++ ['/'] := by
      simp [FsPath.append, joinPath, FsPath.is_absolute, hroot]
    rw [h1]
    simp [FsPath.append, habs, FsPath.has_filename_of_separator, joinPath]
  · obtain ⟨⟨first, tail, hjf, hfirst⟩, init, last, hj, hlast⟩ := joinPath_ends d hne hd
    have hjabs : FsPath.is_absolute (joinPath d) = false := by
      simp [FsPath.is_absolute, hjf, hfirst]
    have h1 : FsPath.append PHOTOS_ROOT (joinPath d) = PHOTOS_ROOT ++ '/' :: joinPath d := by
      simp [FsPath.append, hjabs, hroot]
    have h2 : FsPath.has_filename (PHOTOS_ROOT ++ '/' :: joinPath d) = true := by
      have : PHOTOS_ROOT ++ '/' :: joinPath d = (PHOTOS_ROOT ++ '/' :: init) ++ [last] := by
        rw [hj]; simp
      rw [this]
      exact FsPath.has_filename_of_last _ _ hlast
    rw [h1, joinPath_cons _ _ (by simp), joinPath_append_singleton d hne]
    simp [FsPath.append, habs, h2]

/-- When `fs::relative` gives the path of the file as the directory sequence `d` followed by
the name `raw` of the file, and the file is regular and not hidden, the loop body of
`workerLoop` builds a payload (once the file is moved) with relPath the pathname of `d`,
filename and user the clean name and the user that `parseFilename` gives for `raw`, fullPath
the pathname `Photos/d/cleanName`, and file date the result of the date cascade. -/
theorem processEntry_of_relative (fromString : QString → QDateTime)
    (weakly_canonical : FsPath → FsPath) (srcPath : FsPath) (image : Option Image)
    (lastModified : QDateTime) (fileSize : Int) (d : List StdString) (raw : StdString)
    (hname : FsPath.filename srcPath = raw)
    (hrel : FsPath.relative weakly_canonical srcPath INBOX_DIR = joinPath (d ++ [raw]))
    (hd : ∀ c ∈ d, c ≠ [] ∧ '/' ∉ c)
    (hvisible : raw.head? ≠ some '.') :
    ∃ fInfo, parseFilename raw = some fInfo
      ∧ workerLoop.processEntry fromString true srcPath weakly_canonical image lastModified
          (some fileSize)
        = some
          { filename := fInfo.cleanName
            relPath := joinPath d
            fullPath := joinPath (PHOTOS_ROOT :: (d ++ [fInfo.cleanName]))
            user := fInfo.user
            fileSize := fileSize
            fileDate := workerLoop.finalDateTime (extract fromString image) fInfo lastModified
            meta := extract fromString image } := by
  obtain ⟨fInfo, hparse⟩ := (parseFilename_total raw)
  have hraw : '/' ∉ raw := hname ▸ FsPath.filename_no_separator srcPath
  obtain ⟨n, hn⟩ := parseFilename_cleanName_drop hparse
  have hclean : '/' ∉ fInfo.cleanName := by
    rw [hn]
    exact fun h => hraw (List.mem_of_mem_drop h)
  refine ⟨fInfo, hparse, ?_⟩
  unfold workerLoop.processEntry
  simp only [hname, hrel, hvisible, hparse, FsPath.parent_path_joinPath d raw hd hraw,
    destPath_eq_joinPath d fInfo.cleanName hd hclean, Bool.not_true, Bool.false_eq_true,
    if_false, Option.bind_eq_bind, Option.some_bind, Option.pure_def]

/-- The file `alice___batch1___2023-06-01_120000_trip.jpg` under `uploads/2023/trip`, without
metadata and not reached through a symbolic link: the payload has fullPath
`Photos/2023/trip/2023-06-01_120000_trip.jpg`, relPath `2023/trip`, user `alice` and file date
2023-06-01 12:00:00. -/
theorem processEntry_alice :
    (workerLoop.processEntry (fun _ => QDateTime.null) true
        "uploads/2023/trip/alice___batch1___2023-06-01_120000_trip.jpg".toList plainCanonical
        (some plainImage) ⟨⟨1999, 12, 31⟩, ⟨23, 59, 59⟩⟩ (some 1024)).map
        (fun p => (p.fullPath, p.relPath, p.filename, p.user, p.fileDate))
      = some ("Photos/2023/trip/2023-06-01_120000_trip.jpg".toList, "2023/trip".toList,
          "2023-06-01_120000_trip.jpg".toList, "alice".toList,
          ⟨⟨2023, 6, 1⟩, ⟨12, 0, 0⟩⟩) := by
  obtain ⟨fInfo, hparse, hproc⟩ := processEntry_of_relative (fun _ => QDateTime.null)
    plainCanonical "uploads/2023/trip/alice___batch1___2023-06-01_120000_trip.jpg".toList
    (some plainImage) ⟨⟨1999, 12, 31⟩, ⟨23, 59, 59⟩⟩ 1024 ["2023".toList, "trip".toList]
    "alice___batch1___2023-06-01_120000_trip.jpg".toList (by decide) (by decide) (by decide)
    (by decide)
  have hinfo : fInfo = ⟨"alice".toList, "2023-06-01_120000_trip.jpg".toList⟩ := by
    have h2 : parseFilename "alice___batch1___2023-06-01_120000_trip.jpg".toList
        = some ⟨"alice".toList, "2023-06-01_120000_trip.jpg".toList⟩ := by decide
    rw [h2] at hparse
    exact (Option.some.inj hparse).symm
  subst hinfo
  rw [hproc]
  decide

theorem splitKeepEmpty_of_no_separator (c : StdString) (h : '/' ∉ c) :
    splitKeepEmpty '/' c = [c] := by
  induction c with
  | nil => rfl
  | cons x xs ih =>
    have hx : x ≠ '/' := fun hx => h (hx ▸ List.mem_cons_self x xs)
    have hxs : '/' ∉ xs := fun hm => h (List.mem_cons_of_mem x hm)
    simp [splitKeepEmpty, ih hxs, hx]

theorem splitKeepEmpty_ne_nil (sep : Char) (s : QString) : splitKeepEmpty sep s ≠ [] := by
  cases s with
  | nil => simp [splitKeepEmpty]
  | cons c cs =>
    unfold splitKeepEmpty
    split
    · simp
    · split <;> simp

theorem splitKeepEmpty_separator (rest : StdString) :
    splitKeepEmpty '/' ('/' :: rest) = [] :: splitKeepEmpty '/' rest := by
  cases hsp : splitKeepEmpty '/' rest with
  | nil => exact absurd hsp (splitKeepEmpty_ne_nil '/' rest)
  | cons part parts => simp [splitKeepEmpty, hsp]

theorem splitKeepEmpty_append (c rest : StdString) (h : '/' ∉ c) :
    splitKeepEmpty '/' (c ++ '/' :: rest) = c :: splitKeepEmpty '/' rest := by
  induction c with
  | nil => exact splitKeepEmpty_separator rest
  | cons x xs ih =>
    have hx : x ≠ '/' := fun hx => h (hx ▸ List.mem_cons_self x xs)
    have hxs : '/' ∉ xs := fun hm => h (List.mem_cons_of_mem x hm)
    simp [splitKeepEmpty, ih hxs, hx]

theorem splitKeepEmpty_joinPath (l : List StdString) (hne : l ≠ [])
    (hl : ∀ c ∈ l, c ≠ [] ∧ '/' ∉ c) : splitKeepEmpty '/' (joinPath l) = l := by
  induction l with
  | nil => exact absurd rfl hne
  | cons c rest ih =>
    have hc := (hl c (List.mem_cons_self c rest)).2
    cases rest with
    | nil => simpa [joinPath] using splitKeepEmpty_of_no_separator c hc
    | cons e es =>
      rw [joinPath_cons c (e :: es) (by simp), splitKeepEmpty_append c _ hc,
        ih (by simp) (fun x hx => hl x (List.mem_cons_of_mem c hx))]

/-- The elements of an absolute pathname made of names that are not empty and hold no
separator. -/
theorem FsPath.elements_absolute (l : List StdString) (hl : ∀ c ∈ l, c ≠ [] ∧ '/' ∉ c) :
    FsPath.elements ('/' :: joinPath l) = ['/'] :: l := by
  unfold FsPath.elements
  have habs : FsPath.is_absolute ('/' :: joinPath l) = true := by simp [FsPath.is_absolute]
  rw [habs, splitKeepEmpty_separator]
  by_cases hne : l = []
  · subst hne
    simp [joinPath, splitKeepEmpty]
  · rw [splitKeepEmpty_joinPath l hne hl]
    have hfilter : l.filter (fun e => decide (e ≠ [])) = l := by
      rw [List.filter_eq_self]
      intro c hc
      simpa using (hl c hc).1
    simp [hfilter]
    exact fun c hc => (hl c hc).1

theorem FsPath.mismatch_append (a r : List FsPath) :
    FsPath.mismatch (a ++ r) a = (r, []) := by
  induction a with
  | nil => cases r <;> rfl
  | cons x xs ih => simp [FsPath.mismatch, ih]

theorem foldl_append_joinPath (l r : List StdString) (hne : l ≠ [])
    (hl : ∀ c ∈ l, c ≠ [] ∧ '/' ∉ c) (hr : ∀ c ∈ r, c ≠ [] ∧ '/' ∉ c) :
    r.foldl FsPath.append (joinPath l) = joinPath (l ++ r) := by
  induction r generalizing l with
  | nil => simp
  | cons c rest ih =>
    obtain ⟨_, init, last, hj, hlast⟩ := joinPath_ends l hne hl
    have hc := hr c (List.mem_cons_self c rest)
    have hstep : FsPath.append (joinPath l) c = joinPath (l ++ [c]) := by
      rw [joinPath_append_singleton l hne]
      have hfile : FsPath.has_filename (joinPath l) = true := by
        rw [hj]
        exact FsPath.has_filename_of_last _ _ hlast
      simp [FsPath.append, FsPath.is_absolute_of_no_separator hc.2, hfile]
    rw [List.foldl_cons, hstep, ih (l ++ [c]) (by simp)
      (fun x hx => by
        rcases List.mem_append.mp hx with hx | hx
        · exact hl x hx
        · rw [List.mem_singleton.mp hx]; exact hc)
      (fun x hx => hr x (List.mem_cons_of_mem c hx))]
    simp

/-- The result of `fs::relative` for a file that is not reached through a symbolic link: when
the canonical form of the base is the absolute pathname of the elements `a` and the canonical
form of the path is that of `a` followed by the elements `r`, the result is the pathname
of `r`. -/
theorem FsPath.relative_without_links (weakly_canonical : FsPath → FsPath) (p base : FsPath)
    (a r : List StdString) (hr : r ≠ [])
    (ha : ∀ c ∈ a, c ≠ [] ∧ '/' ∉ c) (hrs : ∀ c ∈ r, c ≠ [] ∧ '/' ∉ c)
    (hbase : weakly_canonical base = '/' :: joinPath a)
    (hp : weakly_canonical p = '/' :: joinPath (a ++ r)) :
    FsPath.relative weakly_canonical p base = joinPath r := by
  obtain ⟨c, rest, hcr⟩ := List.exists_cons_of_ne_nil hr
  have har : ∀ x ∈ a ++ r, x ≠ [] ∧ '/' ∉ x := by
    intro x hx
    rcases List.mem_append.mp hx with hx | hx
    · exact ha x hx
    · exact hrs x hx
  have hmis : FsPath.mismatch (['/'] :: (a ++ r)) (['/'] :: a) = (r, []) := by
    simp [FsPath.mismatch, FsPath.mismatch_append]
  have hc := hrs c (by rw [hcr]; exact List.mem_cons_self c rest)
  have hfirst : FsPath.append [] c = joinPath [c] := by
    simp [FsPath.append, FsPath.is_absolute_of_no_separator hc.2, FsPath.has_filename,
      FsPath.filename, joinPath]
  have hfold : r.foldl FsPath.append [] = joinPath r := by
    rw [hcr, List.foldl_cons, hfirst, foldl_append_joinPath [c] rest (by simp)
      (fun x hx => by rw [List.mem_singleton.mp hx]; exact hc)
      (fun x hx => hrs x (by rw [hcr]; exact List.mem_cons_of_mem c hx))]
    rfl
  unfold FsPath.relative FsPath.lexically_relative
  rw [hbase, hp, FsPath.elements_absolute a ha, FsPath.elements_absolute (a ++ r) har, hmis]
  simp [FsPath.is_absolute, hr, hfold]

/-- For a regular file that is not hidden and is not reached through a symbolic link (the
canonical forms of the inbox and of the file are the pathnames of the current directory
followed by `uploads`, and by `uploads`, the directory sequence `d` and the name `raw`), the
loop body of `workerLoop` builds a payload (once the file is moved) with relPath the pathname
of `d`, filename and user those that `parseFilename` gives for `raw`, and fullPath the
pathname `Photos/d/cleanName`. -/
theorem processEntry_without_links (fromString : QString → QDateTime)
    (weakly_canonical : FsPath → FsPath) (srcPath : FsPath) (image : Option Image)
    (lastModified : QDateTime) (fileSize : Int) (cwd d : List StdString) (raw : StdString)
    (hname : FsPath.filename srcPath = raw) (hraw : raw ≠ [])
    (hcwd : ∀ c ∈ cwd, c ≠ [] ∧ '/' ∉ c) (hd : ∀ c ∈ d, c ≠ [] ∧ '/' ∉ c)
    (hbase : weakly_canonical INBOX_DIR = '/' :: joinPath (cwd ++ [INBOX_DIR]))
    (hsrc : weakly_canonical srcPath = '/' :: joinPath ((cwd ++ [INBOX_DIR]) ++ (d ++ [raw])))
    (hvisible : raw.head? ≠ some '.') :
    ∃ fInfo, parseFilename raw = some fInfo
      ∧ workerLoop.processEntry fromString true srcPath weakly_canonical image lastModified
          (some fileSize)
        = some
          { filename := fInfo.cleanName
            relPath := joinPath d
            fullPath := joinPath (PHOTOS_ROOT :: (d ++ [fInfo.cleanName]))
            user := fInfo.user
            fileSize := fileSize
            fileDate := workerLoop.finalDateTime (extract fromString image) fInfo lastModified
            meta := extract fromString image } := by
  have hslash : '/' ∉ raw := hname ▸ FsPath.filename_no_separator srcPath
  have hinbox : INBOX_DIR ≠ [] ∧ '/' ∉ INBOX_DIR := by decide
  have hrel := FsPath.relative_without_links weakly_canonical srcPath INBOX_DIR
    (cwd ++ [INBOX_DIR]) (d ++ [raw]) (by simp)
    (fun x hx => by
      rcases List.mem_append.mp hx with hx | hx
      · exact hcwd x hx
      · rw [List.mem_singleton.mp hx]; exact hinbox)
    (fun x hx => by
      rcases List.mem_append.mp hx with hx | hx
      · exact hd x hx
      · rw [List.mem_singleton.mp hx]; exact ⟨hraw, hslash⟩)
    hbase hsrc
  exact processEntry_of_relative fromString weakly_canonical srcPath image lastModified
    fileSize d raw hname hrel hd hvisible

/-- C11, failing input. The entry `uploads/s/carol___link.jpg` is a symbolic link to the regular
file `/srv/elsewhere/real.jpg`. Its path relative to the inbox is the directory `s` followed by
the name `carol___link.jpg`, for which the claim gives relPath `s` and fullPath
`Photos/s/link.jpg`. The loop body builds a payload with relPath `../elsewhere` and fullPath
`Photos/../elsewhere/link.jpg`, because `fs::relative` follows the link before it compares the
two paths; filename `link.jpg` and user `carol` are as the claim says. -/
theorem processEntry_symlink (fromString : QString → QDateTime) :
    (workerLoop.processEntry fromString true "uploads/s/carol___link.jpg".toList
        symlinkCanonical (some plainImage) ⟨⟨1999, 12, 31⟩, ⟨23, 59, 59⟩⟩ (some 1024)).map
        (fun p => (p.relPath, p.fullPath, p.filename, p.user))
      = some ("../elsewhere".toList, "Photos/../elsewhere/link.jpg".toList, "link.jpg".toList,
          "carol".toList)
      ∧ "uploads/s/carol___link.jpg".toList
        = joinPath [INBOX_DIR, "s".toList, "carol___link.jpg".toList]
      ∧ joinPath ["s".toList] ≠ "../elsewhere".toList
      ∧ joinPath [PHOTOS_ROOT, "s".toList, "link.jpg".toList]
        ≠ "Photos/../elsewhere/link.jpg".toList :=
  ⟨rfl, by decide, by decide, by decide⟩

end WebGalleryWorker
